import Mathlib

/-!
Verification of the core entropy-coding layer of `constriction`
(quantized fixed-point entropy models, the ANS stack coder, and the
Range queue coder).  The repository snapshot ships only the notebooks
and build metadata; the coder and model implementations themselves are
not present, so every definition below is modelled directly from the
specification's algorithm descriptions (sections 3, 4.1, 4.2, 4.3).

Conventions: `W` is the word width, the state width is `S = 2 * W`, and
`P ≤ W` is the fixed-point model precision.  Machine words are `Nat`s
kept below `2 ^ W`; wrap-around of `S`-bit quantities is written with
explicit `% 2 ^ (2 * W)`.
-/

namespace Constriction

/-! ## Quantized model substrate -/

/-- Modelled from the spec (§3 "Quantized model"): the repository's
model implementations (`QuantizedGaussian`, `Categorical`, `ScipyModel`,
`CustomModel`) are not in the snapshot.  A quantized model over the
contiguous integer alphabet `[lower, lower + probs.length - 1]` stores
the fixed-point probability table `probs` with precision `prec`. -/
structure Model where
  lower : Int
  prec : Nat
  probs : List Nat
deriving DecidableEq

/-- Modelled from the spec (§3, §4.1 contracts C1/C2): a valid model has
a nonempty alphabet, every probability at least 1, and probabilities
summing exactly to `2 ^ P`. -/
def Model.Valid (m : Model) : Prop :=
  m.probs ≠ [] ∧ (∀ p ∈ m.probs, 1 ≤ p) ∧ m.probs.sum = 2 ^ m.prec

instance (m : Model) : Decidable m.Valid := by
  unfold Model.Valid; exact inferInstance

/-- Modelled from the spec (§4.1 "Queries"):
`left_cumulative_and_probability(s)` returns `(c_s, c_{s+1} - c_s)` by
direct indexing for the contiguous integer alphabet; symbols outside
the declared alphabet are an error (`none`). -/
def leftCumulativeAndProbability (m : Model) (s : Int) : Option (Nat × Nat) :=
  if m.lower ≤ s ∧ s < m.lower + m.probs.length then
    some (((m.probs.take (s - m.lower).toNat).sum, m.probs.getD (s - m.lower).toNat 0))
  else none

/-- Helper for `quantileFunction`: walk the probability list and locate
the index `i` whose interval `[c_i, c_i + p_i)` contains the quantile
`q`; returns `(i, c_i, p_i)`. -/
def quantAux : List Nat → Nat → Option (Nat × Nat × Nat)
  | [], _ => none
  | p :: rest, q =>
    if q < p then some (0, 0, p)
    else
      match quantAux rest (q - p) with
      | some (i, c, pp) => some (i + 1, p + c, pp)
      | none => none

/-- Modelled from the spec (§4.1 "Queries"): `quantile_function(q)`
returns the symbol `s` with `c_s ≤ q < c_{s+1}` together with
`(c_s, p_s)`. -/
def quantileFunction (m : Model) (q : Nat) : Option (Int × Nat × Nat) :=
  (quantAux m.probs q).map fun icp => (m.lower + icp.1, icp.2.1, icp.2.2)

/-! ## Model construction from rounded CDF values

The spec (§4.1 "Construction from a continuous CDF") first computes the
tentative left cumulatives `c'_s = round(F(s - ½) · 2^P)`.  That initial
floating-point evaluation is outside the integer substrate (and the
design notes §9 restrict platform float functions to exactly this
step), so the construction below takes the already-rounded cumulative
values as input and performs the integer-exact part: clamping the two
ends, differencing, and the zero-probability remediation loop. -/

/-- Modelled from the spec (§4.1 step 2): tentative probabilities are
the adjacent differences `p'_s = c'_{s+1} - c'_s`. -/
def adjacentDiffs : List Nat → List Nat
  | [] => []
  | [_] => []
  | a :: b :: rest => (b - a) :: adjacentDiffs (b :: rest)

/-- Modelled from the spec (§4.1 step 2): remediation of
zero-probability symbols, processing symbols left to right with the
already-processed prefix kept reversed in `acc`.  A zero probability is
lifted to 1 by stealing from the adjacent neighbor with the largest
slack `p - 1`, ties broken towards the lower symbol index (the left
neighbor); if neither neighbor has positive slack the construction
fails. -/
def fixZerosGo (acc : List Nat) (cur : Nat) : List Nat → Option (List Nat)
  | [] =>
    if cur = 0 then
      match acc with
      | a :: acc' => if 2 ≤ a then some ((1 : Nat) :: (a - 1) :: acc').reverse else none
      | [] => none
    else some (cur :: acc).reverse
  | next :: rest =>
    if cur = 0 then
      if acc.headD 0 - 1 < next - 1 then
        fixZerosGo (1 :: acc) (next - 1) rest
      else
        match acc with
        | a :: acc' => if 2 ≤ a then fixZerosGo (1 :: (a - 1) :: acc') next rest else none
        | [] => none
    else fixZerosGo (cur :: acc) next rest

/-- Remediation entry point: `some` exactly when every probability could
be lifted to at least 1 while preserving the total. -/
def fixZeros : List Nat → Option (List Nat)
  | [] => none
  | p :: rest => fixZerosGo [] p rest

/-- Modelled from the spec (§4.1 "Construction from a continuous CDF",
steps 1-3): given the rounded cumulative values for
`s ∈ [lower, upper+1]`, clamp `c'_lower := 0` and `c'_{upper+1} := 2^P`,
difference, and remediate zeros.  Fewer than two cumulative values means
an empty alphabet (`lower > upper`), which is a construction error. -/
def quantizeCdf (lower : Int) (P : Nat) (cdfvals : List Nat) : Option Model :=
  match cdfvals with
  | _ :: b :: rest =>
    let clamped := 0 :: ((b :: rest).dropLast ++ [2 ^ P])
    match fixZeros (adjacentDiffs clamped) with
    | some probs => some ⟨lower, P, probs⟩
    | none => none
  | _ => none

/-! ## ANS coder (stack discipline, spec §4.2) -/

/-- Modelled from the spec (§3, §4.2): ANS coder state is a single
`S`-bit integer plus the compressed word stack (top = last element). -/
structure AnsCoder where
  state : Nat
  buffer : List Nat
deriving DecidableEq

/-- Modelled from the spec (§4.2 "Encoding one symbol", step 1):
renormalize down — while `state ≥ thresh` (with
`thresh = p · 2^(S-P)`), push the low `W` bits of `state` and shift
`state` right by `W`.  The structural fuel argument is called with
`state + 1`, which exceeds the possible number of iterations; the
returned list is in push order. -/
def renormDownGo (W thresh : Nat) : Nat → Nat → Nat × List Nat
  | 0, st => (st, [])
  | fuel + 1, st =>
    if thresh ≤ st then
      let r := renormDownGo W thresh fuel (st >>> W)
      (r.1, (st % 2 ^ W) :: r.2)
    else (st, [])

/-- Modelled from the spec (§4.2 "Encoding one symbol"): with
`(c, p) = left_cumulative_and_probability(s)`, renormalize down and then
update `state := ((state / p) <<< P) | (c + state mod p)`.  A symbol
outside the alphabet is a synchronous error (`none`). -/
def encodeSymbol (W P : Nat) (m : Model) (s : Int) (coder : AnsCoder) : Option AnsCoder :=
  match leftCumulativeAndProbability m s with
  | none => none
  | some (c, p) =>
    let r := renormDownGo W (p * 2 ^ (2 * W - P)) (coder.state + 1) coder.state
    some ⟨((r.1 / p) <<< P) ||| (c + r.1 % p), coder.buffer ++ r.2⟩

/-- Renormalize-up loop body over the reversed buffer (so that the stack
top is the head and the recursion is structural): while `state < 2^W`
and words remain, pop the top word `w` and set
`state := (state <<< W) | w`. -/
def renormUpGo (W : Nat) : Nat → List Nat → Nat × List Nat
  | st, [] => (st, [])
  | st, w :: rest =>
    if st < 2 ^ W then renormUpGo W ((st <<< W) ||| w) rest
    else (st, w :: rest)

/-- Modelled from the spec (§4.2 "Decoding one symbol", step 4): pop
words from the top of the stack into `state` until `state ≥ 2^W` or the
stack is exhausted. -/
def renormUp (W : Nat) (st : Nat) (buffer : List Nat) : Nat × List Nat :=
  let r := renormUpGo W st buffer.reverse
  (r.1, r.2.reverse)

/-- Modelled from the spec (§4.2 "Decoding one symbol"): extract the
quantile `q = state mod 2^P`, invert it through the model, update
`state := p · (state >> P) + q - c`, and renormalize up. -/
def decodeSymbol (W P : Nat) (m : Model) (coder : AnsCoder) : Option (Int × AnsCoder) :=
  let q := coder.state % 2 ^ P
  match quantileFunction m q with
  | none => none
  | some (s, c, p) =>
    let r := renormUp W (p * (coder.state >>> P) + q - c) coder.buffer
    some (s, ⟨r.1, r.2⟩)

/-- Modelled from the spec (§4.2 "Sealing", §6 "Compressed buffer
layout"): the canonical serialization is the buffer followed by the two
`W`-bit halves of `state` (low half first), omitting trailing zero
halves; the empty coder serializes to the empty word sequence. -/
def ansGetCompressed (W : Nat) (coder : AnsCoder) : List Nat :=
  coder.buffer ++
    (if coder.state = 0 then []
     else if coder.state < 2 ^ W then [coder.state]
     else [coder.state % 2 ^ W, coder.state >>> W])

/-- Modelled from the spec (§4.2 "State"): a fresh decoder fed with a
buffer pops `W`-bit words from the top into `state` until
`state ≥ 2^W` or the buffer is exhausted — exactly the renormalize-up
loop started from `state = 0`. -/
def ansFromCompressed (W : Nat) (words : List Nat) : AnsCoder :=
  let r := renormUp W 0 words
  ⟨r.1, r.2⟩

/-- Encode a sequence of symbols in the given order (head first). -/
def encodeSeq (W P : Nat) (m : Model) : List Int → AnsCoder → Option AnsCoder
  | [], c => some c
  | s :: rest, c =>
    match encodeSymbol W P m s c with
    | none => none
    | some c' => encodeSeq W P m rest c'

/-- Modelled from the notebook's `encode_reverse` (stack discipline):
the message is encoded in reverse order so that decoding proceeds in
forward order. -/
def encodeReverse (W P : Nat) (m : Model) (msg : List Int) (c : AnsCoder) : Option AnsCoder :=
  encodeSeq W P m msg.reverse c

/-- Decode `n` symbols, propagating any error (a failed decode poisons
the whole run). -/
def decodeSeq (W P : Nat) (m : Model) : Nat → AnsCoder → Option (List Int × AnsCoder)
  | 0, c => some ([], c)
  | n + 1, c =>
    match decodeSymbol W P m c with
    | none => none
    | some (s, c') =>
      match decodeSeq W P m n c' with
      | none => none
      | some (l, c'') => some (s :: l, c'')

/-- Modelled from the spec (§7 "Encoding error"): the per-message encode
loop; on the first failing symbol it reports the symbol and returns the
coder exactly as it was before the failed per-symbol call
(transactional per-symbol). -/
def encodeSeqTx (W P : Nat) (m : Model) : List Int → AnsCoder → AnsCoder × Option Int
  | [], c => (c, none)
  | s :: rest, c =>
    match encodeSymbol W P m s c with
    | none => (c, some s)
    | some c' => encodeSeqTx W P m rest c'

/-- Well-formedness of an ANS coder for word width `W`: the state is an
`S`-bit quantity, the buffer holds `W`-bit words, and a nonempty buffer
forces `state ≥ 2^W` (the renormalization lower bound, spec §3). -/
def AnsWf (W : Nat) (c : AnsCoder) : Prop :=
  c.state < 2 ^ (2 * W) ∧ (c.buffer ≠ [] → 2 ^ W ≤ c.state) ∧ ∀ w ∈ c.buffer, w < 2 ^ W

instance (W : Nat) (c : AnsCoder) : Decidable (AnsWf W c) := by
  unfold AnsWf; exact inferInstance

/-! ## Range coder (queue discipline, spec §4.3) -/

/-- Modelled from the spec (§4.3 "Encoder state"): `low` and `range` are
`S`-bit, `cached` is the not-yet-flushed word (`none` before the first
emission), `numPending` counts the run of identical pending words after
it, and `out` is the flushed output queue.  The spec's carry step
converts pending `2^W - 1` words to `0`; `pendingOnes` records which of
the two values the pending run currently has. -/
structure RangeEncoder where
  low : Nat
  range : Nat
  cached : Option Nat
  numPending : Nat
  pendingOnes : Bool
  out : List Nat
deriving DecidableEq

/-- Modelled from the spec (§4.3): fresh encoder with `low = 0`,
`range = 2^S - 1`, empty cache, zero pending, empty output. -/
def rangeEncoderInit (W : Nat) : RangeEncoder :=
  ⟨0, 2 ^ (2 * W) - 1, none, 0, true, []⟩

/-- The common value of the pending words: `2^W - 1`, or `0` after a
carry has converted them. -/
def pendingWord (W : Nat) (e : RangeEncoder) : Nat :=
  if e.pendingOnes then 2 ^ W - 1 else 0

/-- Modelled from the spec (§4.3 step 2): propagate a carry into the
emitted words — increment `cached_word`, the ripple through the pending
`2^W - 1` words converting them to `0`.  With no cached word nothing has
been emitted, and the encoder invariant shows a carry cannot occur
there; the identity keeps the function total. -/
def propagateCarry (e : RangeEncoder) : RangeEncoder :=
  match e.cached with
  | some cw => { e with cached := some (cw + 1), pendingOnes := false }
  | none => e

/-- Modelled from the spec (§4.3 step 4): hand one shifted-out word `w`
to the output machinery.  The first word is cached directly; a word
equal to `2^W - 1` joins the pending run while the run still has that
value; otherwise the cached word and the pending run are flushed and `w`
becomes the new cached word. -/
def emitWord (W : Nat) (e : RangeEncoder) (w : Nat) : RangeEncoder :=
  match e.cached with
  | none => { e with cached := some w }
  | some cw =>
    if w = 2 ^ W - 1 ∧ (e.numPending = 0 ∨ e.pendingOnes) then
      { e with numPending := e.numPending + 1, pendingOnes := true }
    else
      { e with out := e.out ++ cw :: List.replicate e.numPending (pendingWord W e),
               cached := some w, numPending := 0, pendingOnes := true }

/-- Modelled from the spec (§4.3 step 4): one renormalization shift —
emit the top `W` bits of `low`, then `low := (low <<< W) mod 2^S` and
`range := range <<< W`. -/
def encShift (W : Nat) (e : RangeEncoder) : RangeEncoder :=
  let e' := emitWord W e (e.low >>> W)
  { e' with low := (e'.low <<< W) % 2 ^ (2 * W), range := e'.range <<< W }

/-- Modelled from the spec (§4.3 step 4): renormalize while
`range < 2^W`.  Structural fuel; fuel 2 is enough because one shift
already restores `range ≥ 2^W` whenever `range ≥ 1`. -/
def encRenormGo (W : Nat) : Nat → RangeEncoder → RangeEncoder
  | 0, e => e
  | fuel + 1, e => if e.range < 2 ^ W then encRenormGo W fuel (encShift W e) else e

/-- Modelled from the spec (§4.3 "Encoding one symbol"): with `(c, p)`
from the model, `range_unit := range >> P`, add `c · range_unit` into
`low` (propagating any carry into the emitted words),
`range := range_unit · p`, and renormalize.  A symbol outside the
alphabet is a synchronous error. -/
def rangeEncodeStep (W P : Nat) (m : Model) (s : Int) (e : RangeEncoder) : Option RangeEncoder :=
  match leftCumulativeAndProbability m s with
  | none => none
  | some (c, p) =>
    let ru := e.range >>> P
    let sum := e.low + c * ru
    let e1 :=
      if 2 ^ (2 * W) ≤ sum then
        propagateCarry { e with low := sum - 2 ^ (2 * W), range := ru * p }
      else { e with low := sum, range := ru * p }
    some (encRenormGo W 2 e1)

/-- Flush the cached word and the pending run to the output (used by
sealing). -/
def flushAll (W : Nat) (e : RangeEncoder) : List Nat :=
  e.out ++
    (match e.cached with
     | none => []
     | some cw => cw :: List.replicate e.numPending (pendingWord W e))

/-- Modelled from the spec (§4.3 "Sealing the encoder", §8 boundary
behaviors): emit enough additional words to identify a point in
`[low, low + range)` whatever trailing content a decoder reads.  If a
`2^W`-aligned window fits inside the interval, one word (the window's
high word, with a possible final carry) suffices; otherwise the two
words of `low` itself are emitted.  A completely fresh encoder (empty
message) seals to the empty word sequence. -/
def rangeSeal (W : Nat) (e : RangeEncoder) : List Nat :=
  if e.low = 0 ∧ e.range = 2 ^ (2 * W) - 1 ∧ e.cached = none ∧ e.out = [] ∧ e.numPending = 0 then
    []
  else
    let M := (e.low + (2 ^ W - 1)) >>> W
    if M * 2 ^ W + 2 ^ W ≤ e.low + e.range then
      if M < 2 ^ W then flushAll W (emitWord W e M)
      else flushAll W (emitWord W (propagateCarry e) (M % 2 ^ W))
    else flushAll W (emitWord W (emitWord W e (e.low >>> W)) (e.low % 2 ^ W))

/-- Modelled from the spec (§4.3 "Decoder state"): `low`, `range`,
`point` and the remaining input queue. -/
structure RangeDecoder where
  low : Nat
  range : Nat
  point : Nat
  input : List Nat
deriving DecidableEq

/-- Modelled from the spec (§4.3): initialization reads the first
`S/W = 2` words into `point` (reading zero when the input is already
exhausted), with `low = 0` and `range = 2^S - 1`. -/
def rangeDecoderInit (W : Nat) (words : List Nat) : RangeDecoder :=
  ⟨0, 2 ^ (2 * W) - 1, ((words.headD 0) <<< W) ||| words.tail.headD 0, words.tail.tail⟩

/-- Modelled from the spec (§4.3 step 4): one decoder renormalization
shift — shift `low` and `range` left by `W` and refill `point` with the
next input word, or zero if the input is exhausted. -/
def decShift (W : Nat) (d : RangeDecoder) : RangeDecoder :=
  { low := (d.low <<< W) % 2 ^ (2 * W), range := d.range <<< W,
    point := ((d.point <<< W) ||| d.input.headD 0) % 2 ^ (2 * W), input := d.input.tail }

/-- Decoder renormalization loop (`while range < 2^W`), with structural
fuel as for the encoder. -/
def decRenormGo (W : Nat) : Nat → RangeDecoder → RangeDecoder
  | 0, d => d
  | fuel + 1, d => if d.range < 2 ^ W then decRenormGo W fuel (decShift W d) else d

/-- Modelled from the spec (§4.3 "Decoding one symbol"): compute
`q = min((point - low) / range_unit, 2^P - 1)` in wrapping `S`-bit
arithmetic, invert it through the model (a quantile outside every
interval is the malformed-stream error), mirror the encoder's `low` and
`range` updates, and renormalize. -/
def rangeDecodeStep (W P : Nat) (m : Model) (d : RangeDecoder) : Option (Int × RangeDecoder) :=
  let ru := d.range >>> P
  let q := min (((d.point + 2 ^ (2 * W) - d.low) % 2 ^ (2 * W)) / ru) (2 ^ P - 1)
  match quantileFunction m q with
  | none => none
  | some (s, c, p) =>
    let d' :=
      decRenormGo W 2
        { d with low := (d.low + c * ru) % 2 ^ (2 * W), range := ru * p }
    some (s, d')

/-- Encode a whole message with the Range encoder (queue order). -/
def rangeEncodeSeq (W P : Nat) (m : Model) : List Int → RangeEncoder → Option RangeEncoder
  | [], e => some e
  | s :: rest, e =>
    match rangeEncodeStep W P m s e with
    | none => none
    | some e' => rangeEncodeSeq W P m rest e'

/-- Decode `n` symbols with the Range decoder; a malformed-stream error
poisons the whole run. -/
def rangeDecodeSeq (W P : Nat) (m : Model) : Nat → RangeDecoder → Option (List Int × RangeDecoder)
  | 0, d => some ([], d)
  | n + 1, d =>
    match rangeDecodeStep W P m d with
    | none => none
    | some (s, d') =>
      match rangeDecodeSeq W P m n d' with
      | none => none
      | some (l, d'') => some (s :: l, d'')

/-! ## Ghost view of the Range encoder's emitted digits

`flushAll` already lists every digit the encoder is committed to (flushed
output, then the cached word, then the pending run).  The correctness
argument views this digit string as a big base-`2^W` number prepended to
the `S`-bit `low` window: the exact unbounded lower interval end. -/

/-- A word list read as a base-`2^W` number, most significant first. -/
def natOfDigits (W : Nat) (l : List Nat) : Nat :=
  l.foldl (fun acc w => acc * 2 ^ W + w) 0

/-- Number of digits the encoder is committed to. -/
def encLen (W : Nat) (e : RangeEncoder) : Nat := (flushAll W e).length

/-- The exact (unbounded) lower interval end represented by the encoder:
emitted digits scaled above the `S`-bit `low` window. -/
def encTotal (W : Nat) (e : RangeEncoder) : Nat :=
  natOfDigits W (flushAll W e) * 2 ^ (2 * W) + e.low

/-- Well-formedness invariant of the Range encoder (spec §4.3 plus the
carry-safety facts that make the cached/pending representation sound):
`low` and `range` are `S`-bit with `range ≥ 2^W`; all committed digits
are `W`-bit words; a missing cached word means nothing was emitted; in
the two situations in which a rippling carry could overflow the digit
representation (cached word `2^W - 1` with flushed output, or a pending
run already converted to zeros) the interval is known to satisfy
`low + range ≤ 2^S`, which precludes a carry; and the whole interval
fits below the emitted digits' scale. -/
def EncWf (W : Nat) (e : RangeEncoder) : Prop :=
  e.low < 2 ^ (2 * W) ∧
  2 ^ W ≤ e.range ∧ e.range < 2 ^ (2 * W) ∧
  (∀ w ∈ flushAll W e, w < 2 ^ W) ∧
  (e.cached = none → e.out = [] ∧ e.numPending = 0) ∧
  ((e.cached = some (2 ^ W - 1) ∧ e.out ≠ []) ∨ (e.pendingOnes = false ∧ 1 ≤ e.numPending) →
    e.low + e.range ≤ 2 ^ (2 * W)) ∧
  encTotal W e + e.range ≤ 2 ^ (encLen W e * W + 2 * W)

instance (W : Nat) (e : RangeEncoder) : Decidable (EncWf W e) := by
  unfold EncWf; exact inferInstance

/-- The first `k` digits of the decoder's input view of a stream: the
stream's words, continued with zeros once exhausted, read as a
base-`2^W` number. -/
def padPrefix (W : Nat) (stream : List Nat) (k : Nat) : Nat :=
  natOfDigits W ((List.range k).map fun i => stream.getD i 0)

/-- Simulation relation between a Range encoder midpoint and the
decoder state reached after decoding the same symbols from `stream`:
identical `low` and `range` windows, `point` is the (wrapped) view of
the first `encLen + 2` padded stream digits, and the remaining input is
the corresponding stream suffix. -/
def RangeRel (W : Nat) (stream : List Nat) (e : RangeEncoder) (d : RangeDecoder) : Prop :=
  d.low = e.low ∧ d.range = e.range ∧
  d.point = padPrefix W stream (encLen W e + 2) % 2 ^ (2 * W) ∧
  d.input = stream.drop (encLen W e + 2)

/-- The sealed stream pins the decoder's view inside the final
interval: at the final scale, the padded stream prefix lies in
`[encTotal, encTotal + range)`. -/
def StreamFits (W : Nat) (stream : List Nat) (e : RangeEncoder) : Prop :=
  encTotal W e ≤ padPrefix W stream (encLen W e + 2) ∧
  padPrefix W stream (encLen W e + 2) + 1 ≤ encTotal W e + e.range

/-- Interval nesting between two encoder snapshots: the later exact
interval, which lives at a finer scale, is contained in the earlier one
once the earlier one is scaled to the later number of digits. -/
def Nested (W : Nat) (e e' : RangeEncoder) : Prop :=
  encLen W e ≤ encLen W e' ∧
  encTotal W e * 2 ^ ((encLen W e' - encLen W e) * W) ≤ encTotal W e' ∧
  encTotal W e' + e'.range ≤ (encTotal W e + e.range) * 2 ^ ((encLen W e' - encLen W e) * W)

/-! ## Arithmetic helpers -/

/-- Packing a high part above `k` bits with a small low part: the
bitwise or used by the coders is plain addition. -/
theorem shiftLeft_lor_eq_add (a b k : Nat) (h : b < 2 ^ k) :
    (a <<< k) ||| b = a * 2 ^ k + b := by
  apply Nat.eq_of_testBit_eq
  intro j
  rw [Nat.testBit_lor, Nat.testBit_shiftLeft,
    show a * 2 ^ k + b = 2 ^ k * a + b by ring, Nat.testBit_mul_pow_two_add a h j]
  by_cases hj : j < k
  · simp [hj, Nat.not_le_of_lt hj]
  · have hge : k ≤ j := Nat.le_of_not_lt hj
    have hb : b.testBit j = false :=
      Nat.testBit_lt_two_pow (lt_of_lt_of_le h (Nat.pow_le_pow_right (by norm_num) hge))
    simp [hj, hge, hb]

/-! ## Model query lemmas -/

theorem quantAux_sound (probs : List Nat) (q i c p : Nat)
    (h : quantAux probs q = some (i, c, p)) :
    i < probs.length ∧ c = (probs.take i).sum ∧ probs.getD i 0 = p ∧ c ≤ q ∧ q < c + p := by
  induction probs generalizing q i c p with
  | nil => simp [quantAux] at h
  | cons hd tl ih =>
    rw [quantAux] at h
    by_cases hq : q < hd
    · simp only [if_pos hq, Option.some.injEq, Prod.mk.injEq] at h
      obtain ⟨h1, h2, h3⟩ := h
      subst h1; subst h2; subst h3
      refine ⟨Nat.succ_pos _, by simp, by simp, Nat.zero_le _, by simpa using hq⟩
    · simp only [if_neg hq] at h
      cases heq : quantAux tl (q - hd) with
      | none => rw [heq] at h; exact absurd h (by simp)
      | some icp =>
        obtain ⟨i', c', p'⟩ := icp
        rw [heq] at h
        simp only [Option.some.injEq, Prod.mk.injEq] at h
        obtain ⟨h1, h2, h3⟩ := h
        subst h1; subst h2; subst h3
        obtain ⟨hl, hc, hp, hle, hlt⟩ := ih (q - hd) i' c' p' heq
        have hhd : hd ≤ q := Nat.le_of_not_lt hq
        refine ⟨by simpa using hl, by simp [hc], by simpa using hp, by omega, by omega⟩

theorem quantAux_total (probs : List Nat) (q : Nat) (h : q < probs.sum) :
    ∃ i c p, quantAux probs q = some (i, c, p) := by
  induction probs generalizing q with
  | nil => simp at h
  | cons hd tl ih =>
    by_cases hq : q < hd
    · exact ⟨0, 0, hd, by rw [quantAux, if_pos hq]⟩
    · have h' : q - hd < tl.sum := by
        simp only [List.sum_cons] at h
        omega
      obtain ⟨i, c, p, hic⟩ := ih (q - hd) h'
      exact ⟨i + 1, hd + c, p, by rw [quantAux, if_neg hq, hic]⟩

theorem quantAux_complete (probs : List Nat) (i q : Nat)
    (hi : i < probs.length) (hle : (probs.take i).sum ≤ q)
    (hlt : q < (probs.take i).sum + probs.getD i 0) :
    quantAux probs q = some (i, (probs.take i).sum, probs.getD i 0) := by
  induction probs generalizing i q with
  | nil => simp at hi
  | cons hd tl ih =>
    cases i with
    | zero =>
      simp only [List.take_zero, List.sum_nil, List.getD_cons_zero] at hlt ⊢
      rw [quantAux, if_pos (by omega)]
    | succ i' =>
      simp only [List.take_succ_cons, List.sum_cons, List.getD_cons_succ] at hle hlt ⊢
      have hq : ¬q < hd := by omega
      rw [quantAux, if_neg hq,
        ih i' (q - hd) (by simpa using hi) (by omega) (by omega)]

theorem take_sum_add_getD_le (l : List Nat) (i : Nat) (h : i < l.length) :
    (l.take i).sum + l.getD i 0 ≤ l.sum := by
  induction l generalizing i with
  | nil => simp at h
  | cons hd tl ih =>
    cases i with
    | zero => simp
    | succ i' =>
      simp only [List.take_succ_cons, List.sum_cons, List.getD_cons_succ]
      have := ih i' (by simpa using h)
      omega

theorem getD_pos_of_valid (m : Model) (hm : m.Valid) (i : Nat) (h : i < m.probs.length) :
    1 ≤ m.probs.getD i 0 := by
  rw [List.getD_eq_getElem _ _ h]
  exact hm.2.1 _ (List.getElem_mem h)

/-- Unpack a successful `left_cumulative_and_probability` query. -/
theorem lcp_eq (m : Model) (s : Int) (c p : Nat)
    (h : leftCumulativeAndProbability m s = some (c, p)) :
    m.lower ≤ s ∧ s < m.lower + m.probs.length ∧
      c = (m.probs.take (s - m.lower).toNat).sum ∧
      p = m.probs.getD (s - m.lower).toNat 0 ∧
      (s - m.lower).toNat < m.probs.length := by
  unfold leftCumulativeAndProbability at h
  by_cases hcond : m.lower ≤ s ∧ s < m.lower + m.probs.length
  · rw [if_pos hcond] at h
    simp only [Option.some.injEq, Prod.mk.injEq] at h
    refine ⟨hcond.1, hcond.2, h.1.symm, h.2.symm, ?_⟩
    have h1 : s - m.lower < (m.probs.length : Int) := by omega
    have h0 : (0 : Int) ≤ s - m.lower := by omega
    omega
  · rw [if_neg hcond] at h; exact absurd h (by simp)

theorem lcp_bounds (m : Model) (hm : m.Valid) (s : Int) (c p : Nat)
    (h : leftCumulativeAndProbability m s = some (c, p)) :
    1 ≤ p ∧ c + p ≤ 2 ^ m.prec := by
  obtain ⟨_, _, hc, hp, hlen⟩ := lcp_eq m s c p h
  constructor
  · rw [hp]; exact getD_pos_of_valid m hm _ hlen
  · rw [hc, hp, ← hm.2.2]; exact take_sum_add_getD_le _ _ hlen

/-- A successful quantile query inverted back through
`left_cumulative_and_probability`. -/
theorem quantile_lcp (m : Model) (q : Nat) (s : Int) (c p : Nat)
    (h : quantileFunction m q = some (s, c, p)) :
    leftCumulativeAndProbability m s = some (c, p) ∧ c ≤ q ∧ q < c + p := by
  unfold quantileFunction at h
  cases heq : quantAux m.probs q with
  | none => rw [heq] at h; exact absurd h (by simp)
  | some icp =>
    obtain ⟨i, c', p'⟩ := icp
    rw [heq] at h
    simp only [Option.map_some', Option.some.injEq, Prod.mk.injEq] at h
    obtain ⟨hs, hc, hp⟩ := h
    obtain ⟨hl, hc', hp', hle, hlt⟩ := quantAux_sound m.probs q i c' p' heq
    subst hs; subst hc; subst hp
    refine ⟨?_, hle, hlt⟩
    unfold leftCumulativeAndProbability
    rw [if_pos ⟨by omega, by omega⟩]
    have : (m.lower + (i : Int) - m.lower).toNat = i := by
      rw [show m.lower + (i : Int) - m.lower = (i : Int) by ring, Int.toNat_natCast]
    rw [this, hc', hp']

/-- Converse direction: the quantile query agrees with a successful
cumulative query whose interval contains `q`. -/
theorem quantile_of_lcp (m : Model) (s : Int) (c p q : Nat)
    (h : leftCumulativeAndProbability m s = some (c, p))
    (hle : c ≤ q) (hlt : q < c + p) :
    quantileFunction m q = some (s, c, p) := by
  obtain ⟨hls, hsl, hc, hp, hlen⟩ := lcp_eq m s c p h
  subst hc; subst hp
  unfold quantileFunction
  rw [quantAux_complete m.probs _ q hlen hle hlt]
  simp only [Option.map_some', Option.some.injEq, Prod.mk.injEq]
  exact ⟨by omega, trivial⟩

/-! ## Construction lemmas (quantizeCdf) -/

theorem fixZerosGo_spec (rest : List Nat) :
    ∀ acc cur out, (∀ x ∈ acc, 1 ≤ x) → fixZerosGo acc cur rest = some out →
      (∀ x ∈ out, 1 ≤ x) ∧ out.sum = acc.sum + cur + rest.sum ∧
        out.length = acc.length + 1 + rest.length := by
  induction rest with
  | nil =>
    intro acc cur out hacc h
    simp only [fixZerosGo] at h
    by_cases hcur : cur = 0
    · rw [if_pos hcur] at h
      cases acc with
      | nil => simp at h
      | cons a acc' =>
        dsimp only at h
        by_cases ha : 2 ≤ a
        · rw [if_pos ha] at h
          simp only [Option.some.injEq] at h
          subst h
          have ha' : ∀ x ∈ acc', 1 ≤ x := fun x hx => hacc x (List.mem_cons_of_mem _ hx)
          have haa : 1 ≤ a := hacc a (List.mem_cons_self a acc')
          refine ⟨?_, ?_, ?_⟩
          · intro x hx
            simp only [List.mem_reverse, List.mem_cons] at hx
            rcases hx with h1 | h1 | h1
            · omega
            · omega
            · exact ha' _ h1
          · simp only [List.sum_reverse, List.sum_cons, List.sum_nil]
            omega
          · simp only [List.length_reverse, List.length_cons, List.length_nil]
        · rw [if_neg ha] at h
          simp at h
    · rw [if_neg hcur] at h
      simp only [Option.some.injEq] at h
      subst h
      refine ⟨?_, ?_, ?_⟩
      · intro x hx
        simp only [List.mem_reverse, List.mem_cons] at hx
        rcases hx with h1 | h1
        · omega
        · exact hacc _ h1
      · simp only [List.sum_reverse, List.sum_cons, List.sum_nil]
        omega
      · simp only [List.length_reverse, List.length_cons, List.length_nil]
  | cons next rest' ih =>
    intro acc cur out hacc h
    simp only [fixZerosGo] at h
    by_cases hcur : cur = 0
    · rw [if_pos hcur] at h
      by_cases hsl : acc.headD 0 - 1 < next - 1
      · rw [if_pos hsl] at h
        have hnext : 2 ≤ next := by omega
        obtain ⟨h1, h2, h3⟩ :=
          ih (1 :: acc) (next - 1) out
            (by
              intro x hx
              simp only [List.mem_cons] at hx
              rcases hx with h' | h'
              · omega
              · exact hacc _ h') h
        refine ⟨h1, ?_, ?_⟩
        · simp only [List.sum_cons] at h2
          simp only [List.sum_cons]
          omega
        · simp only [List.length_cons] at h3
          simp only [List.length_cons]
          omega
      · rw [if_neg hsl] at h
        cases acc with
        | nil => simp at h
        | cons a acc' =>
          dsimp only at h
          by_cases ha : 2 ≤ a
          · rw [if_pos ha] at h
            have ha' : ∀ x ∈ acc', 1 ≤ x := fun x hx => hacc x (List.mem_cons_of_mem _ hx)
            obtain ⟨h1, h2, h3⟩ :=
              ih (1 :: (a - 1) :: acc') next out
                (by
                  intro x hx
                  simp only [List.mem_cons] at hx
                  rcases hx with h' | h' | h'
                  · omega
                  · omega
                  · exact ha' _ h') h
            refine ⟨h1, ?_, ?_⟩
            · simp only [List.sum_cons] at h2
              simp only [List.sum_cons]
              omega
            · simp only [List.length_cons] at h3
              simp only [List.length_cons]
              omega
          · rw [if_neg ha] at h
            simp at h
    · rw [if_neg hcur] at h
      obtain ⟨h1, h2, h3⟩ :=
        ih (cur :: acc) next out
          (by
            intro x hx
            simp only [List.mem_cons] at hx
            rcases hx with h' | h'
            · omega
            · exact hacc _ h') h
      refine ⟨h1, ?_, ?_⟩
      · simp only [List.sum_cons] at h2
        simp only [List.sum_cons]
        omega
      · simp only [List.length_cons] at h3
        simp only [List.length_cons]
        omega

theorem fixZeros_spec (l out : List Nat) (h : fixZeros l = some out) :
    (∀ x ∈ out, 1 ≤ x) ∧ out.sum = l.sum ∧ out.length = l.length := by
  match l with
  | [] => exact absurd h (by simp [fixZeros])
  | p :: rest =>
    obtain ⟨h1, h2, h3⟩ := fixZerosGo_spec rest [] p out (by simp) h
    simp only [List.sum_nil, List.length_nil, List.sum_cons, List.length_cons] at h2 h3 ⊢
    exact ⟨h1, by omega, by omega⟩

theorem adjacentDiffs_length (a : Nat) (l : List Nat) :
    (adjacentDiffs (a :: l)).length = l.length := by
  induction l generalizing a with
  | nil => rfl
  | cons b rest ih => simp [adjacentDiffs, ih b]

theorem adjacentDiffs_sum (a : Nat) (l : List Nat) (h : List.Chain' (· ≤ ·) (a :: l)) :
    (adjacentDiffs (a :: l)).sum + a = (a :: l).getLastD 0 := by
  induction l generalizing a with
  | nil => simp [adjacentDiffs]
  | cons b rest ih =>
    have hab : a ≤ b := (List.chain'_cons.mp h).1
    have hchain : List.Chain' (· ≤ ·) (b :: rest) := (List.chain'_cons.mp h).2
    have := ih b hchain
    simp only [adjacentDiffs, List.sum_cons, List.getLastD_cons] at this ⊢
    cases rest with
    | nil => simp at this ⊢; omega
    | cons c rest' =>
      simp only [List.getLastD_cons] at this ⊢
      omega

/-- Claim C3: every successfully constructed quantized model over an
integer alphabet `[lower, upper]` with precision `P` — built from any
monotone sequence of rounded CDF values bounded by `2^P` — assigns every
symbol of the alphabet a probability of at least 1, and the
probabilities over the whole alphabet sum to exactly `2^P`. -/
theorem quantized_model_valid (lower : Int) (P : Nat) (cdfvals : List Nat) (m : Model)
    (hmono : List.Chain' (· ≤ ·) cdfvals) (hbound : ∀ v ∈ cdfvals, v ≤ 2 ^ P)
    (h : quantizeCdf lower P cdfvals = some m) :
    m.Valid ∧ m.probs.sum = 2 ^ P ∧
      (∀ s : Int, m.lower ≤ s → s < m.lower + m.probs.length →
        ∃ c p, leftCumulativeAndProbability m s = some (c, p) ∧ 1 ≤ p) := by
  match cdfvals, hmono, hbound, h with
  | a :: b :: rest, hmono, hbound, h =>
    rw [quantizeCdf] at h
    cases hfix : fixZeros (adjacentDiffs (0 :: ((b :: rest).dropLast ++ [2 ^ P]))) with
    | none => rw [hfix] at h; exact absurd h (by simp)
    | some probs =>
      rw [hfix] at h
      simp only [Option.some.injEq] at h
      subst h
      obtain ⟨hpos, hsum, hlen⟩ := fixZeros_spec _ _ hfix
      -- the clamped cumulative list is monotone
      have htail : List.Chain' (· ≤ ·) (b :: rest) := (List.chain'_cons.mp hmono).2
      have hdl : List.Chain' (· ≤ ·) (b :: rest).dropLast :=
        htail.prefix (List.dropLast_prefix _)
      have hclamped : List.Chain' (· ≤ ·) (0 :: ((b :: rest).dropLast ++ [2 ^ P])) := by
        rw [List.chain'_cons']
        refine ⟨fun y _ => Nat.zero_le y, ?_⟩
        rw [List.chain'_append]
        refine ⟨hdl, List.chain'_singleton _, ?_⟩
        intro x hx y hy
        simp only [List.head?_cons, Option.mem_def, Option.some.injEq] at hy
        subst hy
        have hxmem : x ∈ (b :: rest).dropLast := by
          cases hgl : (b :: rest).dropLast.getLast? with
          | none => rw [hgl] at hx; exact absurd hx (by simp)
          | some z =>
            rw [hgl] at hx
            simp only [Option.mem_def, Option.some.injEq] at hx
            subst hx
            obtain ⟨hne, hz⟩ := List.mem_getLast?_eq_getLast (l := (b :: rest).dropLast)
              (by rw [hgl]; rfl)
            rw [hz]
            exact List.getLast_mem hne
        exact hbound x (List.mem_cons_of_mem _ ((List.dropLast_sublist _).mem hxmem))
      -- telescoping: the diffs sum to 2^P
      have hsum2 : probs.sum = 2 ^ P := by
        have := adjacentDiffs_sum 0 ((b :: rest).dropLast ++ [2 ^ P]) hclamped
        rw [List.getLastD_cons, List.getLastD_concat] at this
        omega
      have hlenpos : 0 < probs.length := by
        rw [hlen, adjacentDiffs_length]
        simp
      have hvalid : Model.Valid ⟨lower, P, probs⟩ :=
        ⟨List.ne_nil_of_length_pos hlenpos, hpos, hsum2⟩
      refine ⟨hvalid, hsum2, ?_⟩
      intro s hls hsl
      refine ⟨(probs.take (s - lower).toNat).sum, probs.getD (s - lower).toNat 0, ?_, ?_⟩
      · unfold leftCumulativeAndProbability
        rw [if_pos ⟨hls, hsl⟩]
      · refine getD_pos_of_valid ⟨lower, P, probs⟩ hvalid _ ?_
        simp only at hsl hls ⊢
        omega

/-- Witness for C3 at a concrete construction: `P = 2`, rounded CDF
values `[0, 1, 1, 4]` over alphabet `[0, 2]` (the middle symbol gets
tentative probability 0 and is remediated to `[1, 1, 2]`). -/
theorem quantized_model_valid_witness :
    (⟨0, 2, [1, 1, 2]⟩ : Model).Valid ∧ (⟨0, 2, [1, 1, 2]⟩ : Model).probs.sum = 2 ^ 2 ∧
      (∀ s : Int, (⟨0, 2, [1, 1, 2]⟩ : Model).lower ≤ s →
        s < (⟨0, 2, [1, 1, 2]⟩ : Model).lower + (⟨0, 2, [1, 1, 2]⟩ : Model).probs.length →
        ∃ c p, leftCumulativeAndProbability ⟨0, 2, [1, 1, 2]⟩ s = some (c, p) ∧ 1 ≤ p) :=
  quantized_model_valid 0 2 [0, 1, 1, 4] ⟨0, 2, [1, 1, 2]⟩
    (by simp [List.chain'_cons]) (by decide) (by decide)

/-- Claim C4: for every valid quantized model and every quantile
`q ∈ [0, 2^P)`, the quantile query succeeds with some `(s, c, p)`
satisfying `c ≤ q < c + p`, and `left_cumulative_and_probability(s)`
returns exactly `(c, p)`. -/
theorem quantile_inversion (m : Model) (q : Nat) (hm : m.Valid) (hq : q < 2 ^ m.prec) :
    ∃ s c p, quantileFunction m q = some (s, c, p) ∧ c ≤ q ∧ q < c + p ∧
      leftCumulativeAndProbability m s = some (c, p) := by
  have hq' : q < m.probs.sum := by rw [hm.2.2]; exact hq
  obtain ⟨i, c, p, hic⟩ := quantAux_total m.probs q hq'
  have hquant : quantileFunction m q = some (m.lower + i, c, p) := by
    unfold quantileFunction
    rw [hic]
    rfl
  obtain ⟨hlcp, hle, hlt⟩ := quantile_lcp m q _ c p hquant
  exact ⟨_, c, p, hquant, hle, hlt, hlcp⟩

/-- Witness for C4 at a concrete model and quantile. -/
theorem quantile_inversion_witness :
    ∃ s c p, quantileFunction ⟨0, 2, [1, 2, 1]⟩ 2 = some (s, c, p) ∧ c ≤ 2 ∧ 2 < c + p ∧
      leftCumulativeAndProbability ⟨0, 2, [1, 2, 1]⟩ s = some (c, p) :=
  quantile_inversion ⟨0, 2, [1, 2, 1]⟩ 2 (by decide) (by decide)

/-! ## ANS coder lemmas -/

theorem two_pow_sub_mul {a b : Nat} (h : a ≤ b) : 2 ^ (b - a) * 2 ^ a = 2 ^ b := by
  rw [← pow_add, Nat.sub_add_cancel h]

theorem two_pow_two_mul (W : Nat) : 2 ^ (2 * W) = 2 ^ W * 2 ^ W := by
  rw [two_mul, pow_add]

/-- The renormalize-down loop with fuel `st + 1` runs at most once when
`state < 2^S` and `thresh ≥ 2^W`: either no push, or exactly one. -/
theorem renormDownGo_spec (W thresh st : Nat) (hth : 2 ^ W ≤ thresh)
    (hst : st < 2 ^ (2 * W)) :
    renormDownGo W thresh (st + 1) st =
      if st < thresh then (st, []) else (st >>> W, [st % 2 ^ W]) := by
  by_cases hlt : st < thresh
  · rw [if_pos hlt, renormDownGo, if_neg (by omega)]
  · rw [if_neg hlt]
    have hge : thresh ≤ st := Nat.le_of_not_lt hlt
    have hpos : 1 ≤ st := le_trans (le_trans (Nat.one_le_two_pow) hth) hge
    have hshift : st >>> W < 2 ^ W := by
      rw [Nat.shiftRight_eq_div_pow]
      rw [Nat.div_lt_iff_lt_mul (Nat.two_pow_pos W)]
      rw [← two_pow_two_mul]
      exact hst
    match st, hpos, hge, hshift with
    | n + 1, _, hge, hshift =>
      rw [renormDownGo, if_pos hge, renormDownGo,
        if_neg (Nat.not_le_of_lt (lt_of_lt_of_le hshift hth))]

/-- The renormalize-up loop does nothing once the state is at or above
`2^W`. -/
theorem renormUpGo_of_ge (W x : Nat) (l : List Nat) (h : 2 ^ W ≤ x) :
    renormUpGo W x l = (x, l) := by
  cases l with
  | nil => rfl
  | cons w rest => rw [renormUpGo, if_neg (Nat.not_lt_of_le h)]

/-- The renormalize-up loop keeps the state an `S`-bit quantity, stops
only with a large state or an empty remainder, and the remainder is a
suffix of well-formed words. -/
theorem renormUpGo_spec (W : Nat) (l : List Nat) :
    ∀ st, st < 2 ^ (2 * W) → (∀ w ∈ l, w < 2 ^ W) →
      (renormUpGo W st l).1 < 2 ^ (2 * W) ∧
        ((renormUpGo W st l).2 ≠ [] → 2 ^ W ≤ (renormUpGo W st l).1) ∧
        (∀ w ∈ (renormUpGo W st l).2, w < 2 ^ W) := by
  induction l with
  | nil =>
    intro st hst _
    simp only [renormUpGo]
    exact ⟨hst, fun h => absurd rfl h, by simp⟩
  | cons w rest ih =>
    intro st hst hl
    rw [renormUpGo]
    by_cases hlt : st < 2 ^ W
    · rw [if_pos hlt]
      have hw : w < 2 ^ W := hl w (List.mem_cons_self w rest)
      have hnew : (st <<< W) ||| w < 2 ^ (2 * W) := by
        rw [shiftLeft_lor_eq_add _ _ _ hw, two_pow_two_mul]
        have h1 : st * 2 ^ W + w < (st + 1) * 2 ^ W := by
          rw [Nat.succ_mul]
          omega
        exact lt_of_lt_of_le h1 (Nat.mul_le_mul_right _ hlt)
      exact ih _ hnew fun x hx => hl x (List.mem_cons_of_mem _ hx)
    · rw [if_neg hlt]
      exact ⟨hst, fun _ => Nat.le_of_not_lt hlt, hl⟩

/-- The packed ANS state after the encode update, written as plain
arithmetic. -/
theorem encVal_eq (P c p st : Nat) (hp : 0 < p) (hcp : c + p ≤ 2 ^ P) :
    ((st / p) <<< P) ||| (c + st % p) = st / p * 2 ^ P + (c + st % p) :=
  shiftLeft_lor_eq_add _ _ _ (by have := Nat.mod_lt st hp; omega)

theorem encVal_mod (P c p st : Nat) (hp : 0 < p) (hcp : c + p ≤ 2 ^ P) :
    (st / p * 2 ^ P + (c + st % p)) % 2 ^ P = c + st % p := by
  rw [mul_comm, Nat.mul_add_mod]
  exact Nat.mod_eq_of_lt (by have := Nat.mod_lt st hp; omega)

theorem encVal_shift (P c p st : Nat) (hp : 0 < p) (hcp : c + p ≤ 2 ^ P) :
    (st / p * 2 ^ P + (c + st % p)) >>> P = st / p := by
  rw [Nat.shiftRight_eq_div_pow, mul_comm, Nat.mul_add_div (Nat.two_pow_pos P),
    Nat.div_eq_of_lt (show c + st % p < 2 ^ P by have := Nat.mod_lt st hp; omega),
    Nat.add_zero]

/-- Lower bound on the packed state: a pre-renormalization state of at
least `p · 2^(W-P)` yields an updated state of at least `2^W`. -/
theorem encVal_lower (W P c p st : Nat) (hp : 0 < p) (hst : p * 2 ^ (W - P) ≤ st)
    (hPW : P ≤ W) :
    2 ^ W ≤ st / p * 2 ^ P + (c + st % p) := by
  have hdiv : 2 ^ (W - P) ≤ st / p := by
    rw [Nat.le_div_iff_mul_le hp]
    rw [mul_comm] at hst
    exact hst
  calc 2 ^ W = 2 ^ (W - P) * 2 ^ P := (two_pow_sub_mul hPW).symm
    _ ≤ st / p * 2 ^ P := Nat.mul_le_mul_right _ hdiv
    _ ≤ st / p * 2 ^ P + (c + st % p) := Nat.le_add_right _ _

/-- Upper bound on the packed state: a state below the renormalization
threshold yields an updated state below `2^S`. -/
theorem encVal_upper (W P c p st : Nat) (hp : 0 < p) (hcp : c + p ≤ 2 ^ P)
    (hst : st < p * 2 ^ (2 * W - P)) (hPW : P ≤ W) :
    st / p * 2 ^ P + (c + st % p) < 2 ^ (2 * W) := by
  have hdiv : st / p < 2 ^ (2 * W - P) := by
    rw [Nat.div_lt_iff_lt_mul hp, mul_comm]
    exact hst
  have hmod : c + st % p < 2 ^ P := by have := Nat.mod_lt st hp; omega
  have hP2W : P ≤ 2 * W := le_trans hPW (by omega)
  calc st / p * 2 ^ P + (c + st % p)
      < st / p * 2 ^ P + 2 ^ P := by omega
    _ = (st / p + 1) * 2 ^ P := by ring
    _ ≤ 2 ^ (2 * W - P) * 2 ^ P := Nat.mul_le_mul_right _ (by omega)
    _ = 2 ^ (2 * W) := two_pow_sub_mul hP2W

/-- One-symbol exact inverse: decoding immediately after a successful
encode returns the encoded symbol and restores `state` and `buffer`
exactly, and the updated coder is again well formed. -/
theorem encode_decode_step (W P : Nat) (m : Model) (s : Int) (coder c1 : AnsCoder)
    (hPW : P ≤ W) (hm : m.Valid) (hprec : m.prec = P)
    (hwf : AnsWf W coder) (henc : encodeSymbol W P m s coder = some c1) :
    decodeSymbol W P m c1 = some (s, coder) ∧ AnsWf W c1 := by
  obtain ⟨st0, buf0⟩ := coder
  obtain ⟨hstlt, hbufge, hwords⟩ := hwf
  simp only at hstlt hbufge hwords
  unfold encodeSymbol at henc
  cases hlcp : leftCumulativeAndProbability m s with
  | none => rw [hlcp] at henc; exact absurd henc (by simp)
  | some cp =>
    obtain ⟨c, p⟩ := cp
    rw [hlcp] at henc
    dsimp only at henc
    obtain ⟨hp1, hcp⟩ := lcp_bounds m hm s c p hlcp
    rw [hprec] at hcp
    have hp0 : 0 < p := hp1
    have hth : 2 ^ W ≤ p * 2 ^ (2 * W - P) := by
      calc 2 ^ W ≤ 2 ^ (2 * W - P) := Nat.pow_le_pow_right (by norm_num) (by omega)
        _ = 1 * 2 ^ (2 * W - P) := (one_mul _).symm
        _ ≤ p * 2 ^ (2 * W - P) := Nat.mul_le_mul_right _ hp1
    rw [renormDownGo_spec W _ st0 hth hstlt] at henc
    have hmodlt : ∀ x : Nat, c + x % p < c + p := fun x => by
      have := Nat.mod_lt x hp0; omega
    have hmodle : ∀ x : Nat, c + x % p < 2 ^ P := fun x => by
      have := Nat.mod_lt x hp0; omega
    by_cases hren : st0 < p * 2 ^ (2 * W - P)
    · -- no renormalization: the state was already below the threshold
      rw [if_pos hren] at henc
      simp only [Option.some.injEq] at henc
      subst henc
      simp only [List.append_nil]
      have hval := encVal_eq P c p st0 hp0 hcp
      have hwfnew : AnsWf W ⟨((st0 / p) <<< P) ||| (c + st0 % p), buf0⟩ := by
        refine ⟨?_, ?_, hwords⟩
        · simp only [hval]
          exact encVal_upper W P c p st0 hp0 hcp hren hPW
        · intro hne
          simp only [hval]
          simp only at hne
          have hge : 2 ^ W ≤ st0 := hbufge hne
          have hstep : p * 2 ^ (W - P) ≤ st0 := by
            calc p * 2 ^ (W - P) ≤ 2 ^ P * 2 ^ (W - P) := Nat.mul_le_mul_right _ (by omega)
              _ = 2 ^ (W - P) * 2 ^ P := mul_comm _ _
              _ = 2 ^ W := two_pow_sub_mul hPW
              _ ≤ st0 := hge
          exact encVal_lower W P c p st0 hp0 hstep hPW
      refine ⟨?_, hwfnew⟩
      unfold decodeSymbol
      simp only [hval]
      rw [encVal_mod P c p st0 hp0 hcp,
        quantile_of_lcp m s c p _ hlcp (Nat.le_add_right c _) (hmodlt st0)]
      dsimp only
      rw [encVal_shift P c p st0 hp0 hcp,
        show p * (st0 / p) + (c + st0 % p) - c = st0 by
          have := Nat.div_add_mod st0 p; omega]
      by_cases hbge : 2 ^ W ≤ st0
      · unfold renormUp
        rw [renormUpGo_of_ge W st0 buf0.reverse hbge]
        simp
      · have hbe : buf0 = [] := by
          by_contra hne
          exact hbge (hbufge hne)
        subst hbe
        unfold renormUp
        simp [renormUpGo]
    · -- one renormalization step: the low word was pushed
      rw [if_neg hren] at henc
      simp only [Option.some.injEq] at henc
      subst henc
      have hge : p * 2 ^ (2 * W - P) ≤ st0 := Nat.le_of_not_lt hren
      set st1 := st0 >>> W with hst1
      have hw : st0 % 2 ^ W < 2 ^ W := Nat.mod_lt _ (Nat.two_pow_pos W)
      have hst1lt : st1 < 2 ^ W := by
        rw [hst1, Nat.shiftRight_eq_div_pow]
        rw [Nat.div_lt_iff_lt_mul (Nat.two_pow_pos W), ← two_pow_two_mul]
        exact hstlt
      have hst1th : st1 < p * 2 ^ (2 * W - P) := lt_of_lt_of_le hst1lt hth
      have hst1ge : p * 2 ^ (W - P) ≤ st1 := by
        rw [hst1, Nat.shiftRight_eq_div_pow]
        rw [Nat.le_div_iff_mul_le (Nat.two_pow_pos W)]
        calc p * 2 ^ (W - P) * 2 ^ W = p * (2 ^ (W - P) * 2 ^ W) := by ring
          _ = p * 2 ^ (2 * W - P) := by
              rw [← pow_add, show W - P + W = 2 * W - P by omega]
          _ ≤ st0 := hge
      have hval := encVal_eq P c p st1 hp0 hcp
      have hwfnew : AnsWf W ⟨((st1 / p) <<< P) ||| (c + st1 % p), buf0 ++ [st0 % 2 ^ W]⟩ := by
        refine ⟨?_, ?_, ?_⟩
        · simp only [hval]
          exact encVal_upper W P c p st1 hp0 hcp hst1th hPW
        · intro _
          simp only [hval]
          exact encVal_lower W P c p st1 hp0 hst1ge hPW
        · intro w hwmem
          rcases List.mem_append.mp hwmem with h' | h'
          · exact hwords w h'
          · simp only [List.mem_singleton] at h'
            subst h'
            exact hw
      refine ⟨?_, hwfnew⟩
      unfold decodeSymbol
      simp only [hval]
      rw [encVal_mod P c p st1 hp0 hcp,
        quantile_of_lcp m s c p _ hlcp (Nat.le_add_right c _) (hmodlt st1)]
      dsimp only
      rw [encVal_shift P c p st1 hp0 hcp,
        show p * (st1 / p) + (c + st1 % p) - c = st1 by
          have := Nat.div_add_mod st1 p; omega]
      unfold renormUp
      rw [List.reverse_append, List.reverse_singleton, List.singleton_append,
        renormUpGo]
      rw [if_pos hst1lt]
      have hrejoin : (st1 <<< W) ||| st0 % 2 ^ W = st0 := by
        rw [shiftLeft_lor_eq_add _ _ _ hw, hst1, Nat.shiftRight_eq_div_pow,
          mul_comm, Nat.div_add_mod]
      rw [hrejoin, renormUpGo_of_ge W st0 buf0.reverse (le_trans hth hge)]
      simp

/-- Decoding one symbol preserves well-formedness, for any well-formed
coder and valid model (no assumption that the data was produced by an
encoder). -/
theorem decode_preserves_wf (W P : Nat) (m : Model) (coder : AnsCoder) (s : Int)
    (c1 : AnsCoder) (hPW : P ≤ W) (hm : m.Valid) (hprec : m.prec = P)
    (hwf : AnsWf W coder) (hdec : decodeSymbol W P m coder = some (s, c1)) :
    AnsWf W c1 := by
  obtain ⟨hstlt, hbufge, hwords⟩ := hwf
  unfold decodeSymbol at hdec
  dsimp only at hdec
  cases hq : quantileFunction m (coder.state % 2 ^ P) with
  | none => rw [hq] at hdec; exact absurd hdec (by simp)
  | some scp =>
    obtain ⟨s', c, p⟩ := scp
    rw [hq] at hdec
    dsimp only at hdec
    simp only [Option.some.injEq, Prod.mk.injEq] at hdec
    obtain ⟨hs, hc1⟩ := hdec
    obtain ⟨hlcp, hle, hlt⟩ := quantile_lcp m _ s' c p hq
    obtain ⟨hp1, hcp⟩ := lcp_bounds m hm s' c p hlcp
    rw [hprec] at hcp
    have hh : coder.state >>> P < 2 ^ (2 * W - P) := by
      rw [Nat.shiftRight_eq_div_pow, Nat.div_lt_iff_lt_mul (Nat.two_pow_pos P),
        two_pow_sub_mul (show P ≤ 2 * W by omega)]
      exact hstlt
    have hst' : p * (coder.state >>> P) + coder.state % 2 ^ P - c < 2 ^ (2 * W) := by
      have h1 : p * (coder.state >>> P) + coder.state % 2 ^ P - c <
          p * ((coder.state >>> P) + 1) := by
        rw [Nat.mul_succ]
        omega
      have h2 : p * ((coder.state >>> P) + 1) ≤ 2 ^ P * ((coder.state >>> P) + 1) :=
        Nat.mul_le_mul_right _ (by omega)
      have h3 : 2 ^ P * ((coder.state >>> P) + 1) ≤ 2 ^ P * 2 ^ (2 * W - P) :=
        Nat.mul_le_mul_left _ (by omega)
      have h4 : 2 ^ P * 2 ^ (2 * W - P) = 2 ^ (2 * W) := by
        rw [mul_comm]
        exact two_pow_sub_mul (by omega)
      omega
    have hrspec := renormUpGo_spec W coder.buffer.reverse
      (p * (coder.state >>> P) + coder.state % 2 ^ P - c) hst'
      (fun w hw => hwords w (List.mem_reverse.mp hw))
    rw [← hc1]
    unfold renormUp
    refine ⟨hrspec.1, ?_, ?_⟩
    · intro hne
      simp only [ne_eq, List.reverse_eq_nil_iff] at hne
      exact hrspec.2.1 hne
    · intro w hw
      exact hrspec.2.2 w (List.mem_reverse.mp hw)

/-- Decoding a sum of counts decomposes into sequential decoding. -/
theorem decodeSeq_append (W P : Nat) (m : Model) (a b : Nat) :
    ∀ coder, decodeSeq W P m (a + b) coder =
      match decodeSeq W P m a coder with
      | none => none
      | some (l1, c1) =>
        match decodeSeq W P m b c1 with
        | none => none
        | some (l2, c2) => some (l1 ++ l2, c2) := by
  induction a with
  | zero =>
    intro coder
    rw [Nat.zero_add]
    cases hdec : decodeSeq W P m b coder with
    | none => simp [decodeSeq, hdec]
    | some lc =>
      obtain ⟨l2, c2⟩ := lc
      simp [decodeSeq, hdec]
  | succ n ih =>
    intro coder
    rw [show n + 1 + b = (n + b) + 1 by omega, decodeSeq, decodeSeq]
    cases decodeSymbol W P m coder with
    | none => rfl
    | some sc =>
      obtain ⟨s, c'⟩ := sc
      dsimp only
      rw [ih c']
      cases decodeSeq W P m n c' with
      | none => rfl
      | some lc1 =>
        obtain ⟨l1, c1⟩ := lc1
        dsimp only
        cases decodeSeq W P m b c1 with
        | none => rfl
        | some lc2 =>
          obtain ⟨l2, c2⟩ := lc2
          dsimp only
          rw [List.cons_append]

/-- Sequence-level round trip: encoding a message of in-alphabet symbols
always succeeds, keeps the coder well formed, and decoding the same
number of symbols returns the message in reverse while restoring the
coder exactly. -/
theorem encodeSeq_decodeSeq (W P : Nat) (m : Model)
    (hPW : P ≤ W) (hm : m.Valid) (hprec : m.prec = P) :
    ∀ (msg : List Int) (coder : AnsCoder), AnsWf W coder →
      (∀ s ∈ msg, m.lower ≤ s ∧ s < m.lower + m.probs.length) →
      ∃ c', encodeSeq W P m msg coder = some c' ∧ AnsWf W c' ∧
        decodeSeq W P m msg.length c' = some (msg.reverse, coder) := by
  intro msg
  induction msg with
  | nil => intro coder hwf _; exact ⟨coder, rfl, hwf, rfl⟩
  | cons s rest ih =>
    intro coder hwf hmem
    obtain ⟨hin1, hin2⟩ := hmem s (List.mem_cons_self s rest)
    obtain ⟨c1, henc⟩ : ∃ c1, encodeSymbol W P m s coder = some c1 := by
      unfold encodeSymbol leftCumulativeAndProbability
      rw [if_pos ⟨hin1, hin2⟩]
      exact ⟨_, rfl⟩
    obtain ⟨hdec1, hwf1⟩ := encode_decode_step W P m s coder c1 hPW hm hprec hwf henc
    obtain ⟨c2, henc2, hwf2, hdec2⟩ :=
      ih c1 hwf1 (fun x hx => hmem x (List.mem_cons_of_mem _ hx))
    refine ⟨c2, ?_, hwf2, ?_⟩
    · rw [encodeSeq, henc]
      exact henc2
    · have hone : decodeSeq W P m 1 c1 = some ([s], coder) := by
        rw [show (1 : Nat) = 0 + 1 from rfl, decodeSeq, hdec1]
        rfl
      rw [show (s :: rest).length = rest.length + 1 from rfl,
        decodeSeq_append W P m rest.length 1 c2, hdec2]
      dsimp only
      rw [hone]
      dsimp only
      rw [← List.reverse_cons]

/-- Deserializing the canonical serialization restores the coder
exactly (for any well-formed coder). -/
theorem fromCompressed_getCompressed (W : Nat) (coder : AnsCoder) (hwf : AnsWf W coder) :
    ansFromCompressed W (ansGetCompressed W coder) = coder := by
  obtain ⟨st0, buf0⟩ := coder
  obtain ⟨hstlt, hbufge, hwords⟩ := hwf
  simp only at hstlt hbufge hwords
  unfold ansGetCompressed ansFromCompressed
  have hpw : 0 < 2 ^ W := Nat.two_pow_pos W
  by_cases h0 : st0 = 0
  · subst h0
    have hbe : buf0 = [] := by
      by_contra hne
      have := hbufge hne
      omega
    subst hbe
    simp [renormUp, renormUpGo]
  · rw [if_neg h0]
    by_cases hlt : st0 < 2 ^ W
    · rw [if_pos hlt]
      have hbe : buf0 = [] := by
        by_contra hne
        have := hbufge hne
        omega
      subst hbe
      unfold renormUp
      simp only [List.nil_append, List.reverse_singleton]
      rw [renormUpGo, if_pos hpw,
        show ((0 : Nat) <<< W) ||| st0 = st0 by
          rw [shiftLeft_lor_eq_add _ _ _ hlt]; simp]
      rfl
    · rw [if_neg hlt]
      have hge : 2 ^ W ≤ st0 := Nat.le_of_not_lt hlt
      have hlo : st0 % 2 ^ W < 2 ^ W := Nat.mod_lt _ hpw
      have hhi : st0 >>> W < 2 ^ W := by
        rw [Nat.shiftRight_eq_div_pow, Nat.div_lt_iff_lt_mul hpw, ← two_pow_two_mul]
        exact hstlt
      unfold renormUp
      rw [show (buf0 ++ [st0 % 2 ^ W, st0 >>> W]).reverse
            = st0 >>> W :: st0 % 2 ^ W :: buf0.reverse by simp]
      rw [renormUpGo, if_pos hpw,
        show ((0 : Nat) <<< W) ||| (st0 >>> W) = st0 >>> W by
          rw [shiftLeft_lor_eq_add _ _ _ hhi]; simp,
        renormUpGo, if_pos hhi,
        show ((st0 >>> W) <<< W) ||| st0 % 2 ^ W = st0 by
          rw [shiftLeft_lor_eq_add _ _ _ hlo, Nat.shiftRight_eq_div_pow, mul_comm,
            Nat.div_add_mod],
        renormUpGo_of_ge W st0 buf0.reverse hge]
      simp

/-! ## Claim theorems for the ANS coder -/

/-- Claim C1: for every valid quantized model and every well-formed ANS
coder, encode-one-symbol and decode-one-symbol are exact inverses, and
encoding any in-alphabet symbol sequence followed by decoding the same
number of symbols returns the sequence in reverse order while restoring
`state` and `buffer` exactly. -/
theorem ans_encode_decode_inverse (W P : Nat) (m : Model)
    (hPW : P ≤ W) (hm : m.Valid) (hprec : m.prec = P) :
    (∀ (s : Int) (coder c1 : AnsCoder), AnsWf W coder →
        encodeSymbol W P m s coder = some c1 →
        decodeSymbol W P m c1 = some (s, coder)) ∧
    (∀ (msg : List Int) (coder : AnsCoder), AnsWf W coder →
        (∀ s ∈ msg, m.lower ≤ s ∧ s < m.lower + m.probs.length) →
        ∃ c', encodeSeq W P m msg coder = some c' ∧
          decodeSeq W P m msg.length c' = some (msg.reverse, coder)) := by
  constructor
  · intro s coder c1 hwf henc
    exact (encode_decode_step W P m s coder c1 hPW hm hprec hwf henc).1
  · intro msg coder hwf hmem
    obtain ⟨c', h1, _, h3⟩ := encodeSeq_decodeSeq W P m hPW hm hprec msg coder hwf hmem
    exact ⟨c', h1, h3⟩

/-- Witness for C1 with `W = 4`, `P = 3`, probabilities `[3, 5]`, and
the three-symbol message `[1, 0, 1]` on a fresh coder. -/
theorem ans_encode_decode_inverse_witness :
    ∃ c', encodeSeq 4 3 ⟨0, 3, [3, 5]⟩ [1, 0, 1] ⟨0, []⟩ = some c' ∧
      decodeSeq 4 3 ⟨0, 3, [3, 5]⟩ ([1, 0, 1] : List Int).length c'
        = some (([1, 0, 1] : List Int).reverse, ⟨0, []⟩) :=
  (ans_encode_decode_inverse 4 3 ⟨0, 3, [3, 5]⟩ (by decide) (by decide) rfl).2
    [1, 0, 1] ⟨0, []⟩ (by decide) (by decide)

/-- Counterexample to C5 as stated: with `W = 32`, `P = 24` and the
valid model `[1, 2^24 - 1]`, encoding the second symbol on a fresh coder
yields `state = 1` with an empty stack — the coder is not empty
(`state ≠ 0`) yet `state ∉ [2^32, 2^64)`. -/
theorem ans_state_invariant_counterexample :
    encodeSymbol 32 24 ⟨0, 24, [1, 2 ^ 24 - 1]⟩ 1 ⟨0, []⟩ = some ⟨1, []⟩ ∧
    Model.Valid ⟨0, 24, [1, 2 ^ 24 - 1]⟩ ∧ AnsWf 32 ⟨0, []⟩ ∧
    ¬(((1 : Nat) = 0 ∧ ([] : List Nat) = []) ∨
      (2 ^ 32 ≤ (1 : Nat) ∧ (1 : Nat) < 2 ^ 64)) := by
  refine ⟨by decide, by decide, by decide, by decide⟩

/-- Claim C5 (amended): every encode and every decode of a well-formed
coder keeps `state < 2^S`, and whenever the buffer is nonempty it keeps
`state ∈ [2^W, 2^S)`; starting from an empty coder the state may lie in
`(0, 2^W)` while the buffer is still empty. -/
theorem ans_state_invariant (W P : Nat) (m : Model)
    (hPW : P ≤ W) (hm : m.Valid) (hprec : m.prec = P) :
    (∀ (s : Int) (coder c1 : AnsCoder), AnsWf W coder →
        encodeSymbol W P m s coder = some c1 → AnsWf W c1) ∧
    (∀ (coder : AnsCoder) (s : Int) (c1 : AnsCoder), AnsWf W coder →
        decodeSymbol W P m coder = some (s, c1) → AnsWf W c1) := by
  constructor
  · intro s coder c1 hwf henc
    exact (encode_decode_step W P m s coder c1 hPW hm hprec hwf henc).2
  · intro coder s c1 hwf hdec
    exact decode_preserves_wf W P m coder s c1 hPW hm hprec hwf hdec

/-- Witness for the amended C5 at a concrete encode. -/
theorem ans_state_invariant_witness : AnsWf 4 ⟨3, []⟩ :=
  (ans_state_invariant 4 3 ⟨0, 3, [3, 5]⟩ (by decide) (by decide) rfl).1
    1 ⟨0, []⟩ ⟨3, []⟩ (by decide) (by decide)

/-- The symbol of a successful quantile query lies in the declared
alphabet. -/
theorem quantile_symbol_range (m : Model) (q : Nat) (s : Int) (c p : Nat)
    (h : quantileFunction m q = some (s, c, p)) :
    m.lower ≤ s ∧ s < m.lower + m.probs.length := by
  obtain ⟨hlcp, _, _⟩ := quantile_lcp m q s c p h
  obtain ⟨h1, h2, _⟩ := lcp_eq m s c p hlcp
  exact ⟨h1, h2⟩

/-- Claim C9: every symbol successfully returned by decoding — ANS or
Range, single symbol or sequence, from arbitrary coder contents — lies
within the model's declared alphabet `[lower, upper]`. -/
theorem decode_symbols_in_alphabet (W P : Nat) (m : Model) :
    (∀ (coder : AnsCoder) (s : Int) (c1 : AnsCoder),
        decodeSymbol W P m coder = some (s, c1) →
        m.lower ≤ s ∧ s < m.lower + m.probs.length) ∧
    (∀ (n : Nat) (coder : AnsCoder) (syms : List Int) (c1 : AnsCoder),
        decodeSeq W P m n coder = some (syms, c1) →
        ∀ s ∈ syms, m.lower ≤ s ∧ s < m.lower + m.probs.length) ∧
    (∀ (d : RangeDecoder) (s : Int) (d1 : RangeDecoder),
        rangeDecodeStep W P m d = some (s, d1) →
        m.lower ≤ s ∧ s < m.lower + m.probs.length) ∧
    (∀ (n : Nat) (d : RangeDecoder) (syms : List Int) (d1 : RangeDecoder),
        rangeDecodeSeq W P m n d = some (syms, d1) →
        ∀ s ∈ syms, m.lower ≤ s ∧ s < m.lower + m.probs.length) := by
  have hans : ∀ (coder : AnsCoder) (s : Int) (c1 : AnsCoder),
      decodeSymbol W P m coder = some (s, c1) →
      m.lower ≤ s ∧ s < m.lower + m.probs.length := by
    intro coder s c1 hdec
    unfold decodeSymbol at hdec
    dsimp only at hdec
    cases hq : quantileFunction m (coder.state % 2 ^ P) with
    | none => rw [hq] at hdec; exact absurd hdec (by simp)
    | some scp =>
      obtain ⟨s', c, p⟩ := scp
      rw [hq] at hdec
      simp only [Option.some.injEq, Prod.mk.injEq] at hdec
      rw [← hdec.1]
      exact quantile_symbol_range m _ s' c p hq
  have hrange : ∀ (d : RangeDecoder) (s : Int) (d1 : RangeDecoder),
      rangeDecodeStep W P m d = some (s, d1) →
      m.lower ≤ s ∧ s < m.lower + m.probs.length := by
    intro d s d1 hdec
    unfold rangeDecodeStep at hdec
    dsimp only at hdec
    cases hq : quantileFunction m
        (min ((d.point + 2 ^ (2 * W) - d.low) % 2 ^ (2 * W) / (d.range >>> P))
          (2 ^ P - 1)) with
    | none => rw [hq] at hdec; exact absurd hdec (by simp)
    | some scp =>
      obtain ⟨s', c, p⟩ := scp
      rw [hq] at hdec
      simp only [Option.some.injEq, Prod.mk.injEq] at hdec
      rw [← hdec.1]
      exact quantile_symbol_range m _ s' c p hq
  refine ⟨hans, ?_, hrange, ?_⟩
  · intro n
    induction n with
    | zero =>
      intro coder syms c1 hdec s hs
      simp only [decodeSeq, Option.some.injEq, Prod.mk.injEq] at hdec
      rw [← hdec.1] at hs
      exact absurd hs (by simp)
    | succ k ih =>
      intro coder syms c1 hdec s hs
      rw [decodeSeq] at hdec
      cases h1 : decodeSymbol W P m coder with
      | none => rw [h1] at hdec; exact absurd hdec (by simp)
      | some sc =>
        obtain ⟨s0, c'⟩ := sc
        rw [h1] at hdec
        dsimp only at hdec
        cases h2 : decodeSeq W P m k c' with
        | none => rw [h2] at hdec; exact absurd hdec (by simp)
        | some lc =>
          obtain ⟨l, c''⟩ := lc
          rw [h2] at hdec
          simp only [Option.some.injEq, Prod.mk.injEq] at hdec
          rw [← hdec.1] at hs
          rcases List.mem_cons.mp hs with h' | h'
          · rw [h']; exact hans coder s0 c' h1
          · exact ih c' l c'' h2 s h'
  · intro n
    induction n with
    | zero =>
      intro d syms d1 hdec s hs
      simp only [rangeDecodeSeq, Option.some.injEq, Prod.mk.injEq] at hdec
      rw [← hdec.1] at hs
      exact absurd hs (by simp)
    | succ k ih =>
      intro d syms d1 hdec s hs
      rw [rangeDecodeSeq] at hdec
      cases h1 : rangeDecodeStep W P m d with
      | none => rw [h1] at hdec; exact absurd hdec (by simp)
      | some sc =>
        obtain ⟨s0, d'⟩ := sc
        rw [h1] at hdec
        dsimp only at hdec
        cases h2 : rangeDecodeSeq W P m k d' with
        | none => rw [h2] at hdec; exact absurd hdec (by simp)
        | some lc =>
          obtain ⟨l, d''⟩ := lc
          rw [h2] at hdec
          simp only [Option.some.injEq, Prod.mk.injEq] at hdec
          rw [← hdec.1] at hs
          rcases List.mem_cons.mp hs with h' | h'
          · rw [h']; exact hrange d s0 d' h1
          · exact ih d' l d'' h2 s h'

/-- Witness for C9 at a concrete decode from arbitrary coder contents. -/
theorem decode_symbols_in_alphabet_witness :
    (⟨0, 3, [3, 5]⟩ : Model).lower ≤ 0 ∧
      (0 : Int) < (⟨0, 3, [3, 5]⟩ : Model).lower + (⟨0, 3, [3, 5]⟩ : Model).probs.length :=
  (decode_symbols_in_alphabet 4 3 ⟨0, 3, [3, 5]⟩).1 ⟨200, []⟩ 0 ⟨75, []⟩ (by decide)

/-- Claim C10: the empty message yields an empty compressed buffer (for
both coders), the empty ANS coder serializes to the empty word
sequence, and decoding zero symbols from an empty buffer yields the
empty sequence with a fresh coder. -/
theorem empty_message_empty_buffer (W P : Nat) (m : Model) :
    encodeSeq W P m [] ⟨0, []⟩ = some ⟨0, []⟩ ∧
    encodeReverse W P m [] ⟨0, []⟩ = some ⟨0, []⟩ ∧
    ansGetCompressed W ⟨0, []⟩ = [] ∧
    ansFromCompressed W [] = ⟨0, []⟩ ∧
    decodeSeq W P m 0 (ansFromCompressed W []) = some ([], ⟨0, []⟩) ∧
    rangeEncodeSeq W P m [] (rangeEncoderInit W) = some (rangeEncoderInit W) ∧
    rangeSeal W (rangeEncoderInit W) = [] := by
  refine ⟨rfl, rfl, by simp [ansGetCompressed], rfl, rfl, rfl, ?_⟩
  unfold rangeSeal rangeEncoderInit
  rw [if_pos]
  exact ⟨rfl, rfl, rfl, rfl, rfl⟩

/-- Claim C7: encoding a symbol outside the model's declared alphabet
fails synchronously for both coders, and the per-message encode loop
returns the coder exactly as it was before the failing per-symbol call. -/
theorem encode_out_of_alphabet (W P : Nat) (m : Model) (s : Int)
    (hout : s < m.lower ∨ m.lower + m.probs.length ≤ s) :
    (∀ coder, encodeSymbol W P m s coder = none) ∧
    (∀ coder, encodeSeqTx W P m [s] coder = (coder, some s)) ∧
    (∀ e, rangeEncodeStep W P m s e = none) := by
  have hlcp : leftCumulativeAndProbability m s = none := by
    unfold leftCumulativeAndProbability
    rw [if_neg]
    intro hcond
    omega
  refine ⟨?_, ?_, ?_⟩
  · intro coder
    unfold encodeSymbol
    rw [hlcp]
  · intro coder
    unfold encodeSeqTx encodeSymbol
    rw [hlcp]
  · intro e
    unfold rangeEncodeStep
    rw [hlcp]

/-- Witness for C7: symbol 5 is outside the alphabet `[0, 1]`. -/
theorem encode_out_of_alphabet_witness :
    encodeSymbol 4 3 ⟨0, 3, [3, 5]⟩ 5 ⟨0, []⟩ = none ∧
      encodeSeqTx 4 3 ⟨0, 3, [3, 5]⟩ [5] ⟨0, []⟩ = (⟨0, []⟩, some 5) :=
  have h := encode_out_of_alphabet 4 3 ⟨0, 3, [3, 5]⟩ 5 (by decide)
  ⟨h.1 ⟨0, []⟩, h.2.1 ⟨0, []⟩⟩

/-- Claim C6: encoding is deterministic as a two-run property, and the
fixed-point model construction is a function of `(lower, P, cdf)` alone:
runs on equal inputs produce identical compressed words and identical
probability tables. -/
theorem two_run_determinism (W P : Nat) (m m' : Model) (msg msg' : List Int)
    (lo lo' : Int) (Q Q' : Nat) (cdf cdf' : List Nat)
    (hm : m = m') (hmsg : msg = msg') (hlo : lo = lo') (hQ : Q = Q') (hcdf : cdf = cdf') :
    Option.map (ansGetCompressed W) (encodeReverse W P m msg ⟨0, []⟩)
      = Option.map (ansGetCompressed W) (encodeReverse W P m' msg' ⟨0, []⟩) ∧
    Option.map (rangeSeal W) (rangeEncodeSeq W P m msg (rangeEncoderInit W))
      = Option.map (rangeSeal W) (rangeEncodeSeq W P m' msg' (rangeEncoderInit W)) ∧
    quantizeCdf lo Q cdf = quantizeCdf lo' Q' cdf' := by
  subst hm; subst hmsg; subst hlo; subst hQ; subst hcdf
  exact ⟨rfl, rfl, rfl⟩

/-- Witness for C6 at concrete equal inputs. -/
theorem two_run_determinism_witness :
    Option.map (ansGetCompressed 4) (encodeReverse 4 3 ⟨0, 3, [3, 5]⟩ [1, 0] ⟨0, []⟩)
      = Option.map (ansGetCompressed 4) (encodeReverse 4 3 ⟨0, 3, [3, 5]⟩ [1, 0] ⟨0, []⟩) ∧
    Option.map (rangeSeal 4) (rangeEncodeSeq 4 3 ⟨0, 3, [3, 5]⟩ [1, 0] (rangeEncoderInit 4))
      = Option.map (rangeSeal 4) (rangeEncodeSeq 4 3 ⟨0, 3, [3, 5]⟩ [1, 0] (rangeEncoderInit 4)) ∧
    quantizeCdf 0 2 [0, 1, 1, 4] = quantizeCdf 0 2 [0, 1, 1, 4] :=
  two_run_determinism 4 3 ⟨0, 3, [3, 5]⟩ ⟨0, 3, [3, 5]⟩ [1, 0] [1, 0]
    0 0 2 2 [0, 1, 1, 4] [0, 1, 1, 4] rfl rfl rfl rfl rfl

/-! ## Range decoder: truncated input and malformed streams (C8) -/

/-- Two decoder inputs that differ only by trailing zero words. -/
def InputZeroExt (l1 l2 : List Nat) : Prop :=
  ∃ k, l2 = l1 ++ List.replicate k 0

theorem inputZeroExt_headD {l1 l2 : List Nat} (h : InputZeroExt l1 l2) :
    l1.head?.getD 0 = l2.head?.getD 0 := by
  obtain ⟨k, hk⟩ := h
  subst hk
  cases l1 with
  | nil =>
    cases k with
    | zero => rfl
    | succ k' => rfl
  | cons a t => rfl

theorem inputZeroExt_tail {l1 l2 : List Nat} (h : InputZeroExt l1 l2) :
    InputZeroExt l1.tail l2.tail := by
  obtain ⟨k, hk⟩ := h
  subst hk
  cases l1 with
  | nil =>
    cases k with
    | zero => exact ⟨0, rfl⟩
    | succ k' => exact ⟨k', by simp [List.replicate_succ]⟩
  | cons a t => exact ⟨k, by simp⟩

/-- Decoders equal except for trailing zero words of the input. -/
def DecZeroExt (d d' : RangeDecoder) : Prop :=
  d.low = d'.low ∧ d.range = d'.range ∧ d.point = d'.point ∧
    InputZeroExt d.input d'.input

theorem decShift_zeroExt (W : Nat) {d d' : RangeDecoder} (h : DecZeroExt d d') :
    DecZeroExt (decShift W d) (decShift W d') := by
  obtain ⟨h1, h2, h3, h4⟩ := h
  exact ⟨by simp [decShift, h1], by simp [decShift, h2],
    by simp [decShift, h3, inputZeroExt_headD h4], inputZeroExt_tail h4⟩

theorem decRenormGo_zeroExt (W : Nat) (fuel : Nat) :
    ∀ {d d' : RangeDecoder}, DecZeroExt d d' →
      DecZeroExt (decRenormGo W fuel d) (decRenormGo W fuel d') := by
  induction fuel with
  | zero => intro d d' h; exact h
  | succ n ih =>
    intro d d' h
    rw [decRenormGo, decRenormGo, h.2.1]
    by_cases hr : d'.range < 2 ^ W
    · rw [if_pos hr, if_pos hr]
      exact ih (decShift_zeroExt W h)
    · rw [if_neg hr, if_neg hr]
      exact h

theorem rangeDecodeStep_zeroExt (W P : Nat) (m : Model) {d d' : RangeDecoder}
    (h : DecZeroExt d d') :
    (rangeDecodeStep W P m d = none ↔ rangeDecodeStep W P m d' = none) ∧
    (∀ s e1, rangeDecodeStep W P m d = some (s, e1) →
      ∃ e1', rangeDecodeStep W P m d' = some (s, e1') ∧ DecZeroExt e1 e1') := by
  obtain ⟨h1, h2, h3, h4⟩ := h
  unfold rangeDecodeStep
  dsimp only
  rw [h1, h2, h3]
  cases hq : quantileFunction m
      (min ((d'.point + 2 ^ (2 * W) - d'.low) % 2 ^ (2 * W) / (d'.range >>> P))
        (2 ^ P - 1)) with
  | none =>
    exact ⟨by simp, fun s e1 hstep => by simp at hstep⟩
  | some scp =>
    obtain ⟨s0, c, p⟩ := scp
    dsimp only
    refine ⟨by simp, ?_⟩
    intro s e1 hstep
    simp only [Option.some.injEq, Prod.mk.injEq] at hstep
    obtain ⟨hs, he⟩ := hstep
    subst hs
    refine ⟨_, rfl, ?_⟩
    rw [← he]
    exact decRenormGo_zeroExt W 2 ⟨rfl, rfl, rfl, h4⟩

theorem rangeDecodeSeq_zeroExt (W P : Nat) (m : Model) (n : Nat) :
    ∀ {d d' : RangeDecoder}, DecZeroExt d d' →
      Option.map (fun x => x.1) (rangeDecodeSeq W P m n d)
        = Option.map (fun x => x.1) (rangeDecodeSeq W P m n d') := by
  induction n with
  | zero => intro d d' _; rfl
  | succ k ih =>
    intro d d' h
    rw [rangeDecodeSeq, rangeDecodeSeq]
    cases hstep : rangeDecodeStep W P m d with
    | none =>
      rw [(rangeDecodeStep_zeroExt W P m h).1.mp hstep]
    | some se =>
      obtain ⟨s, e1⟩ := se
      obtain ⟨e1', hstep', hext⟩ := (rangeDecodeStep_zeroExt W P m h).2 s e1 hstep
      rw [hstep']
      dsimp only
      have := ih hext
      cases hrest : rangeDecodeSeq W P m k e1 with
      | none =>
        rw [hrest] at this
        cases hrest' : rangeDecodeSeq W P m k e1' with
        | none => rfl
        | some lc => rw [hrest'] at this; exact absurd this (by simp)
      | some lc =>
        obtain ⟨l, e2⟩ := lc
        rw [hrest] at this
        cases hrest' : rangeDecodeSeq W P m k e1' with
        | none => rw [hrest'] at this; exact absurd this (by simp)
        | some lc' =>
          obtain ⟨l', e2'⟩ := lc'
          rw [hrest'] at this
          simp only [Option.map_some'] at this
          simp only [Option.map_some', Option.some.injEq]
          simp only [Option.some.injEq] at this ⊢
          rw [this]

/-- Claim C8: a Range decoder with exhausted input substitutes zero for
each missing tail word (extending the input with zero words is
unobservable), the malformed-stream error is reported synchronously
exactly when the computed quantile falls outside every probability
interval of the model, and after an error the whole decode run is
poisoned (no further symbols are produced). -/
theorem range_truncated_decode (W P : Nat) (m : Model) :
    (∀ (n : Nat) (lo r pt : Nat) (l : List Nat) (k : Nat),
        Option.map (fun x => x.1) (rangeDecodeSeq W P m n ⟨lo, r, pt, l⟩)
          = Option.map (fun x => x.1)
              (rangeDecodeSeq W P m n ⟨lo, r, pt, l ++ List.replicate k 0⟩)) ∧
    (∀ d : RangeDecoder,
        rangeDecodeStep W P m d = none ↔
          quantileFunction m
            (min ((d.point + 2 ^ (2 * W) - d.low) % 2 ^ (2 * W) / (d.range >>> P))
              (2 ^ P - 1)) = none) ∧
    (∀ (n : Nat) (d : RangeDecoder),
        rangeDecodeStep W P m d = none → rangeDecodeSeq W P m (n + 1) d = none) := by
  refine ⟨?_, ?_, ?_⟩
  · intro n lo r pt l k
    exact rangeDecodeSeq_zeroExt W P m n ⟨rfl, rfl, rfl, k, rfl⟩
  · intro d
    unfold rangeDecodeStep
    dsimp only
    cases hq : quantileFunction m
        (min ((d.point + 2 ^ (2 * W) - d.low) % 2 ^ (2 * W) / (d.range >>> P))
          (2 ^ P - 1)) with
    | none => simp
    | some scp => obtain ⟨s0, c, p⟩ := scp; simp
  · intro n d hstep
    rw [rangeDecodeSeq, hstep]

/-- Witness for C8: with the (deliberately unnormalized) table `[2, 2]`
at `P = 3`, a decoder whose window yields quantile 7 hits no interval
and the decode run fails. -/
theorem range_truncated_decode_witness :
    rangeDecodeSeq 4 3 ⟨0, 3, [2, 2]⟩ 1 ⟨0, 8, 56, []⟩ = none :=
  (range_truncated_decode 4 3 ⟨0, 3, [2, 2]⟩).2.2 0 ⟨0, 8, 56, []⟩ (by decide)

/-! ## Digit-string arithmetic for the Range encoder -/

theorem natOfDigits_foldl (W : Nat) (l : List Nat) :
    ∀ a, l.foldl (fun acc w => acc * 2 ^ W + w) a
      = a * 2 ^ (l.length * W) + natOfDigits W l := by
  induction l with
  | nil => intro a; simp [natOfDigits]
  | cons w t ih =>
    intro a
    rw [show (w :: t).foldl (fun acc w => acc * 2 ^ W + w) a
        = t.foldl (fun acc w => acc * 2 ^ W + w) (a * 2 ^ W + w) from rfl,
      ih (a * 2 ^ W + w),
      show natOfDigits W (w :: t)
        = t.foldl (fun acc w => acc * 2 ^ W + w) (0 * 2 ^ W + w) from rfl,
      ih (0 * 2 ^ W + w)]
    have hp : 2 ^ W * 2 ^ (t.length * W) = 2 ^ ((t.length + 1) * W) := by
      rw [← pow_add]
      congr 1
      ring
    simp only [List.length_cons, Nat.zero_mul, Nat.zero_add]
    calc (a * 2 ^ W + w) * 2 ^ (t.length * W) + natOfDigits W t
        = a * (2 ^ W * 2 ^ (t.length * W)) + (w * 2 ^ (t.length * W) + natOfDigits W t) := by
          ring
      _ = a * 2 ^ ((t.length + 1) * W) + (w * 2 ^ (t.length * W) + natOfDigits W t) := by
          rw [hp]

theorem natOfDigits_cons (W w : Nat) (l : List Nat) :
    natOfDigits W (w :: l) = w * 2 ^ (l.length * W) + natOfDigits W l := by
  rw [show natOfDigits W (w :: l)
      = l.foldl (fun acc w => acc * 2 ^ W + w) (0 * 2 ^ W + w) from rfl,
    natOfDigits_foldl]
  simp

theorem natOfDigits_append (W : Nat) (l1 l2 : List Nat) :
    natOfDigits W (l1 ++ l2)
      = natOfDigits W l1 * 2 ^ (l2.length * W) + natOfDigits W l2 := by
  rw [show natOfDigits W (l1 ++ l2)
      = l2.foldl (fun acc w => acc * 2 ^ W + w) (natOfDigits W l1) from by
        rw [natOfDigits, List.foldl_append]; rfl,
    natOfDigits_foldl]

theorem natOfDigits_replicate_zero (W k : Nat) :
    natOfDigits W (List.replicate k 0) = 0 := by
  induction k with
  | zero => rfl
  | succ n ih => rw [List.replicate_succ, natOfDigits_cons, ih]; simp

theorem natOfDigits_replicate_ones (W k : Nat) :
    natOfDigits W (List.replicate k (2 ^ W - 1)) = 2 ^ (k * W) - 1 := by
  induction k with
  | zero => simp [natOfDigits]
  | succ n ih =>
    rw [List.replicate_succ, natOfDigits_cons, ih, List.length_replicate]
    have h1 : 2 ^ W * 2 ^ (n * W) = 2 ^ ((n + 1) * W) := by
      rw [← pow_add]; congr 1; ring
    have h2 : 1 ≤ 2 ^ (n * W) := Nat.one_le_two_pow
    have h3 : 1 ≤ 2 ^ W := Nat.one_le_two_pow
    have h4 : 2 ^ (n * W) ≤ 2 ^ ((n + 1) * W) :=
      Nat.pow_le_pow_right (by norm_num) (Nat.mul_le_mul_right W (Nat.le_succ n))
    calc (2 ^ W - 1) * 2 ^ (n * W) + (2 ^ (n * W) - 1)
        = 2 ^ W * 2 ^ (n * W) - 2 ^ (n * W) + (2 ^ (n * W) - 1) := by
          rw [Nat.sub_one_mul]
      _ = 2 ^ ((n + 1) * W) - 2 ^ (n * W) + (2 ^ (n * W) - 1) := by rw [h1]
      _ = 2 ^ ((n + 1) * W) - 1 := by omega

theorem natOfDigits_lt (W : Nat) (l : List Nat) (h : ∀ w ∈ l, w < 2 ^ W) :
    natOfDigits W l < 2 ^ (l.length * W) := by
  induction l with
  | nil => simp [natOfDigits]
  | cons w t ih =>
    rw [natOfDigits_cons]
    have hw : w < 2 ^ W := h w (List.mem_cons_self w t)
    have ht := ih (fun x hx => h x (List.mem_cons_of_mem _ hx))
    have h1 : 2 ^ W * 2 ^ (t.length * W) = 2 ^ ((t.length + 1) * W) := by
      rw [← pow_add]; congr 1; ring
    calc w * 2 ^ (t.length * W) + natOfDigits W t
        < w * 2 ^ (t.length * W) + 2 ^ (t.length * W) := by omega
      _ = (w + 1) * 2 ^ (t.length * W) := by ring
      _ ≤ 2 ^ W * 2 ^ (t.length * W) := Nat.mul_le_mul_right _ (by omega)
      _ = 2 ^ ((t.length + 1) * W) := h1

theorem padPrefix_zero (W : Nat) (stream : List Nat) : padPrefix W stream 0 = 0 := rfl

theorem padPrefix_succ (W : Nat) (stream : List Nat) (k : Nat) :
    padPrefix W stream (k + 1) = padPrefix W stream k * 2 ^ W + stream.getD k 0 := by
  unfold padPrefix
  rw [List.range_succ, List.map_append, natOfDigits_append]
  simp [natOfDigits_cons, natOfDigits]

theorem getD_lt (W : Nat) (stream : List Nat) (h : ∀ w ∈ stream, w < 2 ^ W) (i : Nat) :
    stream.getD i 0 < 2 ^ W := by
  by_cases hi : i < stream.length
  · rw [List.getD_eq_getElem _ _ hi]
    exact h _ (List.getElem_mem hi)
  · rw [List.getD_eq_default _ _ (by omega)]
    exact Nat.two_pow_pos W

theorem padPrefix_lt (W : Nat) (stream : List Nat) (h : ∀ w ∈ stream, w < 2 ^ W)
    (k : Nat) : padPrefix W stream k < 2 ^ (k * W) := by
  have := natOfDigits_lt W ((List.range k).map fun i => stream.getD i 0)
    (by
      intro w hw
      simp only [List.mem_map] at hw
      obtain ⟨i, _, hi⟩ := hw
      rw [← hi]
      exact getD_lt W stream h i)
  simpa [padPrefix] using this

/-- Prefixes of the padded stream at different scales are related by
integer division. -/
theorem padPrefix_div (W : Nat) (stream : List Nat) (h : ∀ w ∈ stream, w < 2 ^ W) :
    ∀ j k, padPrefix W stream k = padPrefix W stream (k + j) / 2 ^ (j * W) := by
  intro j
  induction j with
  | zero => intro k; simp
  | succ i ih =>
    intro k
    rw [show k + (i + 1) = (k + i) + 1 by omega, padPrefix_succ]
    have hlt : stream.getD (k + i) 0 < 2 ^ W := getD_lt W stream h _
    have hpow : 2 ^ ((i + 1) * W) = 2 ^ (i * W) * 2 ^ W := by
      rw [← pow_add]; congr 1; ring
    rw [hpow, ih k, mul_comm (2 ^ (i * W)) (2 ^ W), ← Nat.div_div_eq_div_mul,
      mul_comm (padPrefix W stream (k + i)) (2 ^ W),
      Nat.mul_add_div (Nat.two_pow_pos W), Nat.div_eq_of_lt hlt, Nat.add_zero]

/-! ## Emission machinery: digit-level behaviour -/

/-- Handing a word to the output machinery appends exactly that digit
and leaves `low` and `range` untouched. -/
theorem flushAll_emitWord (W : Nat) (e : RangeEncoder) (w : Nat)
    (hnone : e.cached = none → e.out = [] ∧ e.numPending = 0) :
    flushAll W (emitWord W e w) = flushAll W e ++ [w] ∧
    (emitWord W e w).low = e.low ∧ (emitWord W e w).range = e.range := by
  unfold emitWord flushAll pendingWord
  cases hc : e.cached with
  | none =>
    obtain ⟨ho, hk⟩ := hnone hc
    dsimp only
    rw [ho, hk]
    simp
  | some cw =>
    dsimp only
    by_cases hbr : w = 2 ^ W - 1 ∧ (e.numPending = 0 ∨ e.pendingOnes = true)
    · rw [if_pos ?side]
      case side => exact ⟨hbr.1, by rcases hbr.2 with h | h; exact Or.inl h; exact Or.inr (by simp [h])⟩
      dsimp only
      refine ⟨?_, rfl, rfl⟩
      rw [if_pos rfl]
      obtain ⟨hw, hrest⟩ := hbr
      subst hw
      rcases hrest with hk0 | hones
      · rw [hk0]
        simp
      · rw [hones, if_pos rfl, List.replicate_succ']
        simp
    · rw [if_neg ?side2]
      case side2 =>
        intro hcon
        exact hbr ⟨hcon.1, by rcases hcon.2 with h | h; exact Or.inl h; exact Or.inr (by simpa using h)⟩
      dsimp only
      refine ⟨?_, rfl, rfl⟩
      rw [if_pos rfl]
      simp

/-- A carry adds exactly 1 to the emitted digit string (when the
pending run still has its as-emitted value), leaving its length, the
flushed output and `low`/`range` alone. -/
theorem flushAll_propagateCarry (W : Nat) (e : RangeEncoder) (cw : Nat)
    (hc : e.cached = some cw) (hpend : e.numPending = 0 ∨ e.pendingOnes = true) :
    natOfDigits W (flushAll W (propagateCarry e))
      = natOfDigits W (flushAll W e) + 1 ∧
    (flushAll W (propagateCarry e)).length = (flushAll W e).length ∧
    (propagateCarry e).low = e.low ∧ (propagateCarry e).range = e.range ∧
    (propagateCarry e).cached = some (cw + 1) ∧ (propagateCarry e).out = e.out := by
  unfold propagateCarry flushAll pendingWord
  rw [hc]
  dsimp only
  rw [if_neg (by simp)]
  rcases hpend with hk0 | hones
  · rw [hk0]
    simp only [List.replicate_zero, natOfDigits_append, natOfDigits_cons]
    refine ⟨?_, by simp, by trivial, by trivial, by trivial, by trivial⟩
    simp only [natOfDigits, List.foldl_nil, List.length_nil, List.length_cons,
      Nat.zero_mul, pow_zero, Nat.mul_one]
    omega
  · rw [hones, if_pos rfl]
    simp only [natOfDigits_append, natOfDigits_cons, List.length_append,
      List.length_cons, List.length_replicate, natOfDigits_replicate_zero,
      natOfDigits_replicate_ones]
    refine ⟨?_, by trivial, by trivial, by trivial, by trivial, by trivial⟩
    have h2 : 1 ≤ 2 ^ (e.numPending * W) := Nat.one_le_two_pow
    ring_nf
    omega

/-- When the top word of `low` is all ones and `low + range ≤ 2^S`,
the remainder below the top word together with `range` still fits in
one word (the fact that makes post-carry pending runs safe). -/
theorem ffShift_bound (W low range : Nat)
    (hlr : low + range ≤ 2 ^ (2 * W)) (hff : low >>> W = 2 ^ W - 1) :
    low % 2 ^ W + range ≤ 2 ^ W := by
  rw [Nat.shiftRight_eq_div_pow] at hff
  have hdm := Nat.div_add_mod low (2 ^ W)
  rw [hff] at hdm
  have hsub : 2 ^ W * (2 ^ W - 1) = 2 ^ W * 2 ^ W - 2 ^ W := by
    rw [Nat.mul_sub, Nat.mul_one]
  have h22 : 2 ^ (2 * W) = 2 ^ W * 2 ^ W := two_pow_two_mul W
  have hpw : 0 < 2 ^ W := Nat.two_pow_pos W
  omega

/-- Wrapping `S`-bit subtraction recovers the exact difference of the
unbounded quantities when that difference is a small nonnegative
number. -/
theorem wsub_window (M U L r : Nat) (hL : L ≤ U) (hUr : U - L < r) (hrM : r ≤ M) :
    (U % M + M - L % M) % M = U - L := by
  have hM : 0 < M := by omega
  have h1 := Nat.div_add_mod U M
  have h2 := Nat.div_add_mod L M
  have hUm : U % M < M := Nat.mod_lt _ hM
  have hLm : L % M < M := Nat.mod_lt _ hM
  have hdle : L / M ≤ U / M := Nat.div_le_div_right hL
  have hdlt : U / M ≤ L / M + 1 := by
    calc U / M ≤ (L + M) / M := Nat.div_le_div_right (by omega)
      _ = L / M + 1 := Nat.add_div_right L hM
  rcases (by omega : U / M = L / M ∨ U / M = L / M + 1) with he | he
  · have hmm : M * (U / M) = M * (L / M) := by rw [he]
    have hkey : U % M + M - L % M = U - L + M := by omega
    rw [hkey, Nat.add_mod_right]
    exact Nat.mod_eq_of_lt (by omega)
  · have hmm : M * (U / M) = M * (L / M) + M := by rw [he, Nat.mul_add, Nat.mul_one]
    have hkey : U % M + M - L % M = U - L := by omega
    rw [hkey]
    exact Nat.mod_eq_of_lt (by omega)

theorem mod_mul_add_mod (M a x w : Nat) : (a % M * x + w) % M = (a * x + w) % M :=
  ((Nat.mod_modEq a M).mul_right x).add_right w

theorem mod_add_mod2 (M a b : Nat) : (a % M + b) % M = (a + b) % M :=
  (Nat.mod_modEq a M).add_right b

/-- `emitWord` never changes `low` or `range`. -/
theorem emitWord_low_range (W : Nat) (e : RangeEncoder) (w : Nat) :
    (emitWord W e w).low = e.low ∧ (emitWord W e w).range = e.range := by
  unfold emitWord
  cases e.cached with
  | none => exact ⟨rfl, rfl⟩
  | some cw =>
    dsimp only
    by_cases hbr : w = 2 ^ W - 1 ∧ (e.numPending = 0 ∨ e.pendingOnes = true)
    · rw [if_pos (by exact ⟨hbr.1, by rcases hbr.2 with h | h; exact Or.inl h; exact Or.inr (by simp [h])⟩)]
      exact ⟨rfl, rfl⟩
    · rw [if_neg (by
        intro hcon
        exact hbr ⟨hcon.1, by rcases hcon.2 with h | h; exact Or.inl h; exact Or.inr (by simpa using h)⟩)]
      exact ⟨rfl, rfl⟩

/-- Exhaustive description of `emitWord`'s three branches. -/
theorem emitWord_cases (W : Nat) (e : RangeEncoder) (w : Nat) :
    (e.cached = none ∧ emitWord W e w = { e with cached := some w }) ∨
    (∃ cw, e.cached = some cw ∧ (w = 2 ^ W - 1 ∧ (e.numPending = 0 ∨ e.pendingOnes = true)) ∧
      emitWord W e w = { e with numPending := e.numPending + 1, pendingOnes := true }) ∨
    (∃ cw, e.cached = some cw ∧ ¬(w = 2 ^ W - 1 ∧ (e.numPending = 0 ∨ e.pendingOnes = true)) ∧
      emitWord W e w
        = { e with out := e.out ++ cw :: List.replicate e.numPending (pendingWord W e),
                   cached := some w, numPending := 0, pendingOnes := true }) := by
  unfold emitWord
  cases hc : e.cached with
  | none => exact Or.inl ⟨rfl, rfl⟩
  | some cw =>
    dsimp only
    by_cases hbr : w = 2 ^ W - 1 ∧ (e.numPending = 0 ∨ e.pendingOnes = true)
    · refine Or.inr (Or.inl ⟨cw, rfl, hbr, ?_⟩)
      rw [if_pos (by exact ⟨hbr.1, by rcases hbr.2 with h | h; exact Or.inl h; exact Or.inr (by simp [h])⟩)]
    · refine Or.inr (Or.inr ⟨cw, rfl, hbr, ?_⟩)
      rw [if_neg (by
        intro hcon
        exact hbr ⟨hcon.1, by rcases hcon.2 with h | h; exact Or.inl h; exact Or.inr (by simpa using h)⟩)]

/-- Record updates of `low` and `range` do not alter the committed
digit string. -/
theorem flushAll_update (W : Nat) (x : RangeEncoder) (l r : Nat) :
    flushAll W { x with low := l, range := r } = flushAll W x := rfl

/-- One renormalization shift of the Range encoder: appends the top
word of `low` to the digit string, scales the exact interval by `2^W`,
and preserves the well-formedness clauses. -/
theorem encShift_sim (W : Nat) (e : RangeEncoder)
    (hlow : e.low < 2 ^ (2 * W))
    (hrsm : e.range < 2 ^ W)
    (hrpos : 1 ≤ e.range)
    (hwords : ∀ w ∈ flushAll W e, w < 2 ^ W)
    (hnone : e.cached = none → e.out = [] ∧ e.numPending = 0)
    (hbad : (e.cached = some (2 ^ W - 1) ∧ e.out ≠ []) ∨
        (e.pendingOnes = false ∧ 1 ≤ e.numPending) → e.low + e.range ≤ 2 ^ (2 * W))
    (hinv : encTotal W e + e.range ≤ 2 ^ (encLen W e * W + 2 * W)) :
    EncWf W (encShift W e) ∧
    encLen W (encShift W e) = encLen W e + 1 ∧
    encTotal W (encShift W e) = encTotal W e * 2 ^ W ∧
    (encShift W e).range = e.range * 2 ^ W := by
  have hpw : 0 < 2 ^ W := Nat.two_pow_pos W
  have h22 : 2 ^ (2 * W) = 2 ^ W * 2 ^ W := two_pow_two_mul W
  have hw : e.low >>> W < 2 ^ W := by
    rw [Nat.shiftRight_eq_div_pow, Nat.div_lt_iff_lt_mul hpw, ← h22]
    exact hlow
  obtain ⟨hfl, hlw, hrg⟩ := flushAll_emitWord W e (e.low >>> W) hnone
  have hfl2 : flushAll W (encShift W e) = flushAll W e ++ [e.low >>> W] := by
    rw [show flushAll W (encShift W e)
        = flushAll W (emitWord W e (e.low >>> W)) from flushAll_update W _ _ _]
    exact hfl
  have hlow' : (encShift W e).low = e.low % 2 ^ W * 2 ^ W := by
    show ((emitWord W e (e.low >>> W)).low <<< W) % 2 ^ (2 * W) = _
    rw [hlw, Nat.shiftLeft_eq, h22, Nat.mul_mod_mul_right]
  have hrange' : (encShift W e).range = e.range * 2 ^ W := by
    show (emitWord W e (e.low >>> W)).range <<< W = _
    rw [hrg, Nat.shiftLeft_eq]
  have hlen' : encLen W (encShift W e) = encLen W e + 1 := by
    unfold encLen
    rw [hfl2]
    simp
  have hNval : natOfDigits W (flushAll W (encShift W e))
      = natOfDigits W (flushAll W e) * 2 ^ W + e.low >>> W := by
    rw [hfl2, natOfDigits_append]
    simp [natOfDigits]
  have hdm : e.low >>> W * 2 ^ W + e.low % 2 ^ W = e.low := by
    rw [Nat.shiftRight_eq_div_pow]
    exact Nat.div_add_mod' e.low (2 ^ W)
  have htot : encTotal W (encShift W e) = encTotal W e * 2 ^ W := by
    unfold encTotal
    rw [hNval, hlow',
      show (natOfDigits W (flushAll W e) * 2 ^ W + e.low >>> W) * 2 ^ (2 * W)
          + e.low % 2 ^ W * 2 ^ W
        = (natOfDigits W (flushAll W e) * 2 ^ (2 * W)
            + (e.low >>> W * 2 ^ W + e.low % 2 ^ W)) * 2 ^ W from by
      rw [h22]; ring, hdm]
  refine ⟨⟨?_, ?_, ?_, ?_, ?_, ?_, ?_⟩, hlen', htot, hrange'⟩
  · rw [hlow']
    calc e.low % 2 ^ W * 2 ^ W < 2 ^ W * 2 ^ W :=
        (Nat.mul_lt_mul_right hpw).mpr (Nat.mod_lt _ hpw)
      _ = 2 ^ (2 * W) := h22.symm
  · rw [hrange']
    calc 2 ^ W = 1 * 2 ^ W := (one_mul _).symm
      _ ≤ e.range * 2 ^ W := Nat.mul_le_mul_right _ hrpos
  · rw [hrange', h22]
    exact (Nat.mul_lt_mul_right hpw).mpr hrsm
  · intro x hx
    rw [hfl2] at hx
    rcases List.mem_append.mp hx with h' | h'
    · exact hwords x h'
    · simp only [List.mem_singleton] at h'
      subst h'
      exact hw
  · -- the cached word is never `none` after an emission
    intro hcn
    exfalso
    rcases emitWord_cases W e (e.low >>> W) with ⟨_, heq⟩ | ⟨cw, hc, _, heq⟩ | ⟨cw, hc, _, heq⟩ <;>
      · rw [show (encShift W e).cached = (emitWord W e (e.low >>> W)).cached from rfl,
          heq] at hcn
        simp only at hcn
        first
          | exact absurd hcn (by simp)
          | (rw [hc] at hcn; exact absurd hcn (by simp))
  · -- carry-safety clauses
    intro hb
    have hcast : (encShift W e).low + (encShift W e).range ≤ 2 ^ (2 * W) →
        (encShift W e).low + (encShift W e).range ≤ 2 ^ (2 * W) := id
    rcases emitWord_cases W e (e.low >>> W) with ⟨hc, heq⟩ | ⟨cw, hc, hcond, heq⟩ | ⟨cw, hc, hcond, heq⟩
    · -- first emission: empty output and no pending, both disjuncts impossible
      obtain ⟨ho, hk⟩ := hnone hc
      exfalso
      rcases hb with ⟨_, hout⟩ | ⟨_, hkk⟩
      · exact hout (by
          rw [show (encShift W e).out = (emitWord W e (e.low >>> W)).out from rfl, heq]
          exact ho)
      · rw [show (encShift W e).numPending = (emitWord W e (e.low >>> W)).numPending from rfl,
          heq] at hkk
        simp only at hkk
        omega
    · -- pending branch: the shifted word is all ones
      have hff : e.low >>> W = 2 ^ W - 1 := hcond.1
      have hones' : (encShift W e).pendingOnes = true := by
        rw [show (encShift W e).pendingOnes = (emitWord W e (e.low >>> W)).pendingOnes from rfl,
          heq]
      rcases hb with ⟨hcc, hout⟩ | ⟨hpo, _⟩
      · have hcc' : e.cached = some (2 ^ W - 1) := by
          rw [show (encShift W e).cached = (emitWord W e (e.low >>> W)).cached from rfl,
            heq] at hcc
          rw [show ({ e with numPending := e.numPending + 1, pendingOnes := true }
              : RangeEncoder).cached = e.cached from rfl] at hcc
          exact hcc
        have hout' : e.out ≠ [] := by
          rw [show (encShift W e).out = (emitWord W e (e.low >>> W)).out from rfl, heq] at hout
          exact hout
        have hlr := hbad (Or.inl ⟨hcc', hout'⟩)
        have hbound := ffShift_bound W e.low e.range hlr hff
        rw [hlow', hrange']
        calc e.low % 2 ^ W * 2 ^ W + e.range * 2 ^ W
            = (e.low % 2 ^ W + e.range) * 2 ^ W := by ring
          _ ≤ 2 ^ W * 2 ^ W := Nat.mul_le_mul_right _ hbound
          _ = 2 ^ (2 * W) := h22.symm
      · rw [hones'] at hpo
        exact absurd hpo (by simp)
    · -- flush branch
      rcases hb with ⟨hcc, _⟩ | ⟨_, hkk⟩
      · have hff : e.low >>> W = 2 ^ W - 1 := by
          rw [show (encShift W e).cached = (emitWord W e (e.low >>> W)).cached from rfl,
            heq] at hcc
          simp only [Option.some.injEq] at hcc
          exact hcc
        have hnotpend : ¬(e.numPending = 0 ∨ e.pendingOnes = true) := by
          intro hor
          exact hcond ⟨hff, hor⟩
        push_neg at hnotpend
        have hlr := hbad (Or.inr ⟨by
          cases hpo : e.pendingOnes
          · rfl
          · exact absurd hpo hnotpend.2, by omega⟩)
        have hbound := ffShift_bound W e.low e.range hlr hff
        rw [hlow', hrange']
        calc e.low % 2 ^ W * 2 ^ W + e.range * 2 ^ W
            = (e.low % 2 ^ W + e.range) * 2 ^ W := by ring
          _ ≤ 2 ^ W * 2 ^ W := Nat.mul_le_mul_right _ hbound
          _ = 2 ^ (2 * W) := h22.symm
      · rw [show (encShift W e).numPending = (emitWord W e (e.low >>> W)).numPending from rfl,
          heq] at hkk
        simp only at hkk
        omega
  · -- the scaled interval still fits below the digits' scale
    rw [htot, hrange', hlen']
    calc encTotal W e * 2 ^ W + e.range * 2 ^ W
        = (encTotal W e + e.range) * 2 ^ W := by ring
      _ ≤ 2 ^ (encLen W e * W + 2 * W) * 2 ^ W := Nat.mul_le_mul_right _ hinv
      _ = 2 ^ ((encLen W e + 1) * W + 2 * W) := by
          rw [← pow_add]
          congr 1
          ring

/-- With fuel 2 the renormalization loop performs at most one shift:
a single shift already restores `range ≥ 2^W` whenever `range ≥ 1`. -/
theorem encRenormGo_two (W : Nat) (e : RangeEncoder) (hrpos : 1 ≤ e.range) :
    encRenormGo W 2 e = if e.range < 2 ^ W then encShift W e else e := by
  show (if e.range < 2 ^ W then encRenormGo W 1 (encShift W e) else e) = _
  by_cases h : e.range < 2 ^ W
  · rw [if_pos h, if_pos h]
    have hrg : (encShift W e).range = e.range * 2 ^ W := by
      show (emitWord W e (e.low >>> W)).range <<< W = _
      rw [(emitWord_low_range W e _).2, Nat.shiftLeft_eq]
    show (if (encShift W e).range < 2 ^ W then
        encRenormGo W 0 (encShift W (encShift W e)) else encShift W e) = _
    rw [if_neg]
    push_neg
    rw [hrg]
    calc 2 ^ W = 1 * 2 ^ W := (one_mul _).symm
      _ ≤ e.range * 2 ^ W := Nat.mul_le_mul_right _ hrpos
  · rw [if_neg h, if_neg h]

/-- Renormalizing a state that satisfies the shift-safety side
conditions yields a well-formed encoder whose exact interval is the
input interval scaled by `2^(δ·W)` for the number `δ ≤ 1` of performed
shifts. -/
theorem renorm_sim (W : Nat) (e1 : RangeEncoder)
    (hlow : e1.low < 2 ^ (2 * W))
    (hrpos : 1 ≤ e1.range)
    (hrlt : e1.range < 2 ^ (2 * W))
    (hwords : ∀ w ∈ flushAll W e1, w < 2 ^ W)
    (hnone : e1.cached = none → e1.out = [] ∧ e1.numPending = 0)
    (hbad : (e1.cached = some (2 ^ W - 1) ∧ e1.out ≠ []) ∨
        (e1.pendingOnes = false ∧ 1 ≤ e1.numPending) → e1.low + e1.range ≤ 2 ^ (2 * W))
    (hinv : encTotal W e1 + e1.range ≤ 2 ^ (encLen W e1 * W + 2 * W)) :
    ∃ δ, δ ≤ 1 ∧ EncWf W (encRenormGo W 2 e1) ∧
      encLen W (encRenormGo W 2 e1) = encLen W e1 + δ ∧
      encTotal W (encRenormGo W 2 e1) = encTotal W e1 * 2 ^ (δ * W) ∧
      (encRenormGo W 2 e1).range = e1.range * 2 ^ (δ * W) := by
  rw [encRenormGo_two W e1 hrpos]
  by_cases h : e1.range < 2 ^ W
  · rw [if_pos h]
    obtain ⟨hwf, hlen, htot, hrg⟩ :=
      encShift_sim W e1 hlow h hrpos hwords hnone hbad hinv
    exact ⟨1, le_refl 1, hwf, hlen, by rw [htot, one_mul], by rw [hrg, one_mul]⟩
  · rw [if_neg h]
    refine ⟨0, by omega, ⟨hlow, Nat.le_of_not_lt h, hrlt, hwords, hnone, hbad, hinv⟩,
      by omega, ?_, ?_⟩ <;> simp

/-- When the current interval extends past `2^S` (the only situation in
which a later carry can reach the emitted digits), the digit machinery
can absorb the carry: something has been emitted, the cached word is
not saturated, and the pending run still has its as-emitted value. -/
theorem carry_ok (W : Nat) (e : RangeEncoder) (hwf : EncWf W e)
    (hbig : 2 ^ (2 * W) < e.low + e.range) :
    ∃ cw, e.cached = some cw ∧ cw + 1 < 2 ^ W ∧
      (e.numPending = 0 ∨ e.pendingOnes = true) := by
  obtain ⟨hlow, hrge, hrlt, hwords, hnone, hbad, hinv⟩ := hwf
  have hpend : e.numPending = 0 ∨ e.pendingOnes = true := by
    by_contra hcon
    push_neg at hcon
    have h1 : e.pendingOnes = false := by
      cases hpo : e.pendingOnes
      · rfl
      · exact absurd hpo hcon.2
    have h2 : e.numPending ≠ 0 := hcon.1
    have := hbad (Or.inr ⟨h1, by omega⟩)
    omega
  cases hc : e.cached with
  | none =>
    exfalso
    obtain ⟨ho, hk⟩ := hnone hc
    have hfl : flushAll W e = [] := by
      unfold flushAll
      rw [hc, ho]
      rfl
    have : encTotal W e = e.low := by
      unfold encTotal
      rw [hfl]
      simp [natOfDigits]
    have hlen : encLen W e = 0 := by
      unfold encLen
      rw [hfl]
      rfl
    rw [this, hlen] at hinv
    simp only [Nat.zero_mul, Nat.zero_add] at hinv
    omega
  | some cw =>
    refine ⟨cw, rfl, ?_, hpend⟩
    have hcwlt : cw < 2 ^ W := by
      apply hwords
      unfold flushAll
      rw [hc]
      exact List.mem_append_right _ (List.mem_cons_self _ _)
    by_contra hsat
    have hcweq : cw = 2 ^ W - 1 := by
      have hpw : 0 < 2 ^ W := Nat.two_pow_pos W
      omega
    subst hcweq
    have hout : e.out = [] := by
      by_contra hne
      have := hbad (Or.inl ⟨hc, hne⟩)
      omega
    -- the committed digit string is a maximal run of all-ones words,
    -- so the interval-fit clause forces `low + range ≤ 2^S`
    have hfl : flushAll W e = List.replicate (e.numPending + 1) (2 ^ W - 1) := by
      unfold flushAll pendingWord
      rw [hc, hout]
      rcases hpend with hk0 | hones
      · rw [hk0]
        simp
      · rw [hones, if_pos rfl, List.replicate_succ]
        simp
    have hN : natOfDigits W (flushAll W e) = 2 ^ ((e.numPending + 1) * W) - 1 := by
      rw [hfl, natOfDigits_replicate_ones]
    have hlen : encLen W e = e.numPending + 1 := by
      unfold encLen
      rw [hfl, List.length_replicate]
    rw [hlen] at hinv
    unfold encTotal at hinv
    rw [hN] at hinv
    have hsplit : 2 ^ ((e.numPending + 1) * W + 2 * W)
        = 2 ^ ((e.numPending + 1) * W) * 2 ^ (2 * W) := by
      rw [← pow_add]
    have h1 : 1 ≤ 2 ^ ((e.numPending + 1) * W) := Nat.one_le_two_pow
    rw [hsplit] at hinv
    have hexp : (2 ^ ((e.numPending + 1) * W) - 1) * 2 ^ (2 * W)
        = 2 ^ ((e.numPending + 1) * W) * 2 ^ (2 * W) - 2 ^ (2 * W) := by
      rw [Nat.sub_one_mul]
    omega

/-- The exact digit string after a carry: the flushed output, the
incremented cached word, then the pending run converted to zeros. -/
theorem flushAll_propagateCarry_eq (W : Nat) (e : RangeEncoder) (cw : Nat)
    (hc : e.cached = some cw) :
    flushAll W (propagateCarry e)
      = e.out ++ (cw + 1) :: List.replicate e.numPending 0 := by
  unfold propagateCarry flushAll pendingWord
  rw [hc]
  dsimp only
  rw [if_neg (by simp)]

/-- One Range encoder step on a well-formed encoder: it succeeds, stays
well-formed, and the exact unbounded interval becomes the sub-interval
`[T + c·ru, T + c·ru + ru·p)` of `[T, T + range)` scaled by the `δ ≤ 1`
renormalization shifts (`ru = range >> P`). -/
theorem rangeEncodeStep_sim (W P : Nat) (m : Model) (s : Int) (e : RangeEncoder)
    (hPW : P ≤ W) (hwf : EncWf W e) (c p : Nat)
    (hc : leftCumulativeAndProbability m s = some (c, p))
    (hcp : c + p ≤ 2 ^ P) (hp1 : 1 ≤ p) :
    ∃ e' δ, rangeEncodeStep W P m s e = some e' ∧ δ ≤ 1 ∧ EncWf W e' ∧
      encLen W e' = encLen W e + δ ∧
      encTotal W e' = (encTotal W e + c * (e.range >>> P)) * 2 ^ (δ * W) ∧
      e'.range = (e.range >>> P) * p * 2 ^ (δ * W) ∧
      c * (e.range >>> P) + (e.range >>> P) * p ≤ e.range := by
  have hwf' := hwf
  obtain ⟨hlow, hrge, hrlt, hwords, hnone, hbad, hinv⟩ := hwf'
  have hpw : 0 < 2 ^ W := Nat.two_pow_pos W
  have hpP : 0 < 2 ^ P := Nat.two_pow_pos P
  have hruval : e.range >>> P = e.range / 2 ^ P := Nat.shiftRight_eq_div_pow _ _
  have hru1 : 1 ≤ e.range >>> P := by
    rw [hruval]
    have h2 : 2 ^ P ≤ e.range :=
      le_trans (Nat.pow_le_pow_right (by norm_num) hPW) hrge
    exact (Nat.one_le_div_iff hpP).mpr h2
  have hshrink : c * (e.range >>> P) + (e.range >>> P) * p ≤ e.range := by
    calc c * (e.range >>> P) + (e.range >>> P) * p
        = (c + p) * (e.range >>> P) := by ring
      _ ≤ 2 ^ P * (e.range >>> P) := Nat.mul_le_mul_right _ hcp
      _ = e.range / 2 ^ P * 2 ^ P := by rw [hruval, mul_comm]
      _ ≤ e.range := Nat.div_mul_le_self _ _
  have hrupos : 1 ≤ e.range >>> P * p := Nat.mul_le_mul hru1 hp1
  have hruplt : e.range >>> P * p < 2 ^ (2 * W) := by
    have h1 : e.range >>> P * p ≤ e.range := by omega
    omega
  unfold rangeEncodeStep
  rw [hc]
  dsimp only
  by_cases hcar : 2 ^ (2 * W) ≤ e.low + c * (e.range >>> P)
  · -- carry into the emitted digits
    rw [if_pos hcar]
    have hbig : 2 ^ (2 * W) < e.low + e.range := by
      have h1 : e.low + c * (e.range >>> P) + e.range >>> P * p ≤ e.low + e.range := by
        omega
      omega
    obtain ⟨cw, hcc, hcw1, hpendok⟩ := carry_ok W e hwf hbig
    have hsumlt : e.low + c * (e.range >>> P) < 2 ^ (2 * W) + 2 ^ (2 * W) := by
      have h1 : c * (e.range >>> P) ≤ e.range := by omega
      omega
    obtain ⟨hN1, hlen1, hlow1, hrg1, hcach1, hout1⟩ :=
      flushAll_propagateCarry W
        { e with low := e.low + c * (e.range >>> P) - 2 ^ (2 * W),
                 range := e.range >>> P * p } cw hcc hpendok
    rw [flushAll_update] at hN1 hlen1
    have hfeq := flushAll_propagateCarry_eq W
      { e with low := e.low + c * (e.range >>> P) - 2 ^ (2 * W),
               range := e.range >>> P * p } cw hcc
    have hlen1' : encLen W (propagateCarry
        { e with low := e.low + c * (e.range >>> P) - 2 ^ (2 * W),
                 range := e.range >>> P * p }) = encLen W e := by
      unfold encLen
      rw [hlen1, flushAll_update]
    have htot1 : encTotal W (propagateCarry
        { e with low := e.low + c * (e.range >>> P) - 2 ^ (2 * W),
                 range := e.range >>> P * p })
        = encTotal W e + c * (e.range >>> P) := by
      unfold encTotal
      rw [hN1, hlow1]
      show (natOfDigits W (flushAll W e) + 1) * 2 ^ (2 * W)
          + (e.low + c * (e.range >>> P) - 2 ^ (2 * W))
        = natOfDigits W (flushAll W e) * 2 ^ (2 * W) + e.low + c * (e.range >>> P)
      have : (natOfDigits W (flushAll W e) + 1) * 2 ^ (2 * W)
          = natOfDigits W (flushAll W e) * 2 ^ (2 * W) + 2 ^ (2 * W) := by ring
      omega
    obtain ⟨δ, hδ, hwf2, hlen2, htot2, hrg2⟩ := renorm_sim W _
      (by rw [hlow1]; show e.low + c * (e.range >>> P) - 2 ^ (2 * W) < 2 ^ (2 * W); omega)
      (by rw [hrg1]; exact hrupos)
      (by rw [hrg1]; exact hruplt)
      (by
        intro w hw
        rw [hfeq] at hw
        rcases List.mem_append.mp hw with h' | h'
        · refine hwords w ?_
          unfold flushAll
          exact List.mem_append_left _ h'
        · rcases List.mem_cons.mp h' with h'' | h''
          · omega
          · have := List.eq_of_mem_replicate h''
            omega)
      (by
        intro h
        rw [hcach1] at h
        exact absurd h (by simp))
      (by
        intro _
        rw [hlow1, hrg1]
        show e.low + c * (e.range >>> P) - 2 ^ (2 * W) + e.range >>> P * p ≤ 2 ^ (2 * W)
        have h1 : e.low + c * (e.range >>> P) + e.range >>> P * p ≤ e.low + e.range := by
          omega
        omega)
      (by
        rw [htot1, hrg1, hlen1']
        show encTotal W e + c * (e.range >>> P) + e.range >>> P * p
          ≤ 2 ^ (encLen W e * W + 2 * W)
        have h1 : c * (e.range >>> P) + e.range >>> P * p ≤ e.range := hshrink
        omega)
    refine ⟨_, δ, rfl, hδ, hwf2, ?_, ?_, ?_, hshrink⟩
    · rw [hlen2, hlen1']
    · rw [htot2, htot1]
    · rw [hrg2, hrg1]
  · -- no carry
    rw [if_neg hcar]
    push_neg at hcar
    have htot1 : encTotal W
        { e with low := e.low + c * (e.range >>> P), range := e.range >>> P * p }
        = encTotal W e + c * (e.range >>> P) := by
      unfold encTotal
      rw [flushAll_update]
      show natOfDigits W (flushAll W e) * 2 ^ (2 * W) + (e.low + c * (e.range >>> P))
        = natOfDigits W (flushAll W e) * 2 ^ (2 * W) + e.low + c * (e.range >>> P)
      omega
    have hlen1 : encLen W
        { e with low := e.low + c * (e.range >>> P), range := e.range >>> P * p }
        = encLen W e := by
      unfold encLen
      rw [flushAll_update]
    obtain ⟨δ, hδ, hwf2, hlen2, htot2, hrg2⟩ := renorm_sim W
      { e with low := e.low + c * (e.range >>> P), range := e.range >>> P * p }
      hcar
      hrupos
      hruplt
      (by rw [flushAll_update]; exact hwords)
      hnone
      (by
        intro h
        have h2 := hbad h
        show e.low + c * (e.range >>> P) + e.range >>> P * p ≤ 2 ^ (2 * W)
        omega)
      (by
        rw [htot1, hlen1]
        show encTotal W e + c * (e.range >>> P) + e.range >>> P * p
          ≤ 2 ^ (encLen W e * W + 2 * W)
        omega)
    refine ⟨_, δ, rfl, hδ, hwf2, ?_, ?_, ?_, hshrink⟩
    · rw [hlen2, hlen1]
    · rw [htot2, htot1]
    · rw [hrg2]

/-- `Nested` is transitive. -/
theorem nested_trans (W : Nat) (e1 e2 e3 : RangeEncoder)
    (h12 : Nested W e1 e2) (h23 : Nested W e2 e3) : Nested W e1 e3 := by
  obtain ⟨hl12, hlo12, hhi12⟩ := h12
  obtain ⟨hl23, hlo23, hhi23⟩ := h23
  have hsplit : 2 ^ ((encLen W e3 - encLen W e1) * W)
      = 2 ^ ((encLen W e2 - encLen W e1) * W) * 2 ^ ((encLen W e3 - encLen W e2) * W) := by
    rw [← pow_add]
    congr 1
    have : encLen W e3 - encLen W e1
        = (encLen W e2 - encLen W e1) + (encLen W e3 - encLen W e2) := by omega
    rw [this]
    ring
  refine ⟨le_trans hl12 hl23, ?_, ?_⟩
  · rw [hsplit, ← mul_assoc]
    calc encTotal W e1 * 2 ^ ((encLen W e2 - encLen W e1) * W)
          * 2 ^ ((encLen W e3 - encLen W e2) * W)
        ≤ encTotal W e2 * 2 ^ ((encLen W e3 - encLen W e2) * W) :=
          Nat.mul_le_mul_right _ hlo12
      _ ≤ encTotal W e3 := hlo23
  · rw [hsplit, ← mul_assoc]
    calc encTotal W e3 + e3.range
        ≤ (encTotal W e2 + e2.range) * 2 ^ ((encLen W e3 - encLen W e2) * W) := hhi23
      _ ≤ (encTotal W e1 + e1.range) * 2 ^ ((encLen W e2 - encLen W e1) * W)
            * 2 ^ ((encLen W e3 - encLen W e2) * W) :=
          Nat.mul_le_mul_right _ hhi12

/-- One encoder step nests the new exact interval inside the old one. -/
theorem step_nested (W : Nat) (e e' : RangeEncoder) (δ c ru p : Nat)
    (hδlen : encLen W e' = encLen W e + δ)
    (htot : encTotal W e' = (encTotal W e + c * ru) * 2 ^ (δ * W))
    (hrg : e'.range = ru * p * 2 ^ (δ * W))
    (hshrink : c * ru + ru * p ≤ e.range) : Nested W e e' := by
  have hdiff : encLen W e' - encLen W e = δ := by omega
  refine ⟨by omega, ?_, ?_⟩
  · rw [hdiff, htot]
    exact Nat.mul_le_mul_right _ (Nat.le_add_right _ _)
  · rw [hdiff, htot, hrg]
    calc (encTotal W e + c * ru) * 2 ^ (δ * W) + ru * p * 2 ^ (δ * W)
        = (encTotal W e + (c * ru + ru * p)) * 2 ^ (δ * W) := by ring
      _ ≤ (encTotal W e + e.range) * 2 ^ (δ * W) :=
          Nat.mul_le_mul_right _ (by omega)

/-- Encoding a whole message from a well-formed encoder keeps it
well-formed and nests the final exact interval inside the starting
one. -/
theorem rangeEncodeSeq_wf_nested (W P : Nat) (m : Model)
    (hPW : P ≤ W) (hm : m.Valid) (hprec : m.prec = P) :
    ∀ (msg : List Int) (e ef : RangeEncoder), EncWf W e →
      rangeEncodeSeq W P m msg e = some ef →
      EncWf W ef ∧ Nested W e ef := by
  intro msg
  induction msg with
  | nil =>
    intro e ef hwf hseq
    have he : e = ef := by
      simpa [rangeEncodeSeq] using hseq
    subst he
    exact ⟨hwf, le_refl _, by simp, by simp⟩
  | cons s rest ih =>
    intro e ef hwf hseq
    rw [rangeEncodeSeq] at hseq
    cases hstep : rangeEncodeStep W P m s e with
    | none => rw [hstep] at hseq; exact absurd hseq (by simp)
    | some e1 =>
      rw [hstep] at hseq
      have hlcp : ∃ c p, leftCumulativeAndProbability m s = some (c, p) := by
        unfold rangeEncodeStep at hstep
        cases h : leftCumulativeAndProbability m s with
        | none => rw [h] at hstep; exact absurd hstep (by simp)
        | some cp => obtain ⟨c', p'⟩ := cp; exact ⟨c', p', rfl⟩
      obtain ⟨c, p, hc⟩ := hlcp
      obtain ⟨hp1, hcp⟩ := lcp_bounds m hm s c p hc
      rw [hprec] at hcp
      obtain ⟨e2, δ, hstep2, hδ, hwf2, hlen2, htot2, hrg2, hshrink2⟩ :=
        rangeEncodeStep_sim W P m s e hPW hwf c p hc hcp hp1
      rw [hstep] at hstep2
      have he12 : e1 = e2 := by
        simpa using hstep2
      subst he12
      obtain ⟨hwff, hnest⟩ := ih e1 ef hwf2 hseq
      exact ⟨hwff, nested_trans W e e1 ef
        (step_nested W e e1 δ c (e.range >>> P) p hlen2 htot2 hrg2 hshrink2) hnest⟩

/-- With fuel 2 the decoder renormalization loop performs at most one
shift (mirror of `encRenormGo_two`). -/
theorem decRenormGo_two (W : Nat) (d : RangeDecoder) (hrpos : 1 ≤ d.range) :
    decRenormGo W 2 d = if d.range < 2 ^ W then decShift W d else d := by
  show (if d.range < 2 ^ W then decRenormGo W 1 (decShift W d) else d) = _
  by_cases h : d.range < 2 ^ W
  · rw [if_pos h, if_pos h]
    have hrg : (decShift W d).range = d.range * 2 ^ W := by
      show d.range <<< W = _
      rw [Nat.shiftLeft_eq]
    show (if (decShift W d).range < 2 ^ W then
        decRenormGo W 0 (decShift W (decShift W d)) else decShift W d) = _
    rw [if_neg]
    push_neg
    rw [hrg]
    calc 2 ^ W = 1 * 2 ^ W := (one_mul _).symm
      _ ≤ d.range * 2 ^ W := Nat.mul_le_mul_right _ hrpos
  · rw [if_neg h, if_neg h]

/-- `low` is the `S`-bit window of the exact interval start. -/
theorem encTotal_mod (W : Nat) (e : RangeEncoder) (hlow : e.low < 2 ^ (2 * W)) :
    encTotal W e % 2 ^ (2 * W) = e.low := by
  unfold encTotal
  rw [Nat.add_comm, Nat.add_mul_mod_self_right]
  exact Nat.mod_eq_of_lt hlow

theorem mod_mul_mod2 (M a x : Nat) : (a % M * x) % M = (a * x) % M :=
  (Nat.mod_modEq a M).mul_right x

/-- The head of a dropped suffix is the corresponding indexed element
(with matching defaults). -/
theorem drop_headD (l : List Nat) : ∀ i : Nat, (l.drop i).headD 0 = l.getD i 0 := by
  induction l with
  | nil => intro i; simp
  | cons a t ih =>
    intro i
    cases i with
    | zero => rfl
    | succ j =>
      rw [List.drop_succ_cons, ih j]
      rfl

/-- The tail of a dropped suffix drops one more element. -/
theorem drop_tail (l : List Nat) : ∀ i : Nat, (l.drop i).tail = l.drop (i + 1) := by
  induction l with
  | nil => intro i; simp
  | cons a t ih =>
    intro i
    cases i with
    | zero => rfl
    | succ j =>
      rw [List.drop_succ_cons, ih j]
      rfl

/-- Decoding simulates encoding: from any midpoint of the encode run,
with the decoder in the matching state and a stream that pins the final
interval, decoding the remaining symbols succeeds, returns exactly
those symbols, and leaves the decoder matching the final encoder
state. -/
theorem rangeDecodeSeq_sim (W P : Nat) (m : Model) (stream : List Nat)
    (hPW : P ≤ W) (hm : m.Valid) (hprec : m.prec = P)
    (hstream : ∀ w ∈ stream, w < 2 ^ W) :
    ∀ (msg : List Int) (e ef : RangeEncoder) (d : RangeDecoder),
      EncWf W e → rangeEncodeSeq W P m msg e = some ef →
      RangeRel W stream e d → StreamFits W stream ef →
      ∃ df, rangeDecodeSeq W P m msg.length d = some (msg, df) ∧
        RangeRel W stream ef df := by
  intro msg
  induction msg with
  | nil =>
    intro e ef d hwf hseq hrel hfits
    have he : e = ef := by simpa [rangeEncodeSeq] using hseq
    subst he
    exact ⟨d, rfl, hrel⟩
  | cons s rest ih =>
    intro e ef d hwf hseq hrel hfits
    rw [rangeEncodeSeq] at hseq
    cases hstep : rangeEncodeStep W P m s e with
    | none => rw [hstep] at hseq; exact absurd hseq (by simp)
    | some e1 =>
      rw [hstep] at hseq
      have hlcp : ∃ c p, leftCumulativeAndProbability m s = some (c, p) := by
        unfold rangeEncodeStep at hstep
        cases h : leftCumulativeAndProbability m s with
        | none => rw [h] at hstep; exact absurd hstep (by simp)
        | some cp => obtain ⟨c', p'⟩ := cp; exact ⟨c', p', rfl⟩
      obtain ⟨c, p, hc⟩ := hlcp
      obtain ⟨hp1, hcp⟩ := lcp_bounds m hm s c p hc
      rw [hprec] at hcp
      obtain ⟨e2, δ, hstep2, hδ, hwf1, hlen1, htot1, hrg1, hshrink⟩ :=
        rangeEncodeStep_sim W P m s e hPW hwf c p hc hcp hp1
      rw [hstep] at hstep2
      have he12 : e1 = e2 := by
        simpa using hstep2
      subst he12
      obtain ⟨hwff, hnest⟩ :=
        rangeEncodeSeq_wf_nested W P m hPW hm hprec rest e1 ef hwf1 hseq
      have hwfe := hwf
      obtain ⟨hlow, hrge, hrlt, hwords, hnone, hbadc, hinv⟩ := hwfe
      obtain ⟨hdlow, hdrg, hdpt, hdin⟩ := hrel
      have hM : 0 < 2 ^ (2 * W) := Nat.two_pow_pos _
      have hpw : 0 < 2 ^ W := Nat.two_pow_pos W
      have hru1 : 1 ≤ e.range >>> P := by
        rw [Nat.shiftRight_eq_div_pow]
        exact (Nat.one_le_div_iff (Nat.two_pow_pos P)).mpr
          (le_trans (Nat.pow_le_pow_right (by norm_num) hPW) hrge)
      -- the padded stream prefix at the current scale lies in the
      -- pre-renormalization sub-interval
      have hnl : encLen W e1 ≤ encLen W ef := hnest.1
      have hγ : encLen W ef - encLen W e = δ + (encLen W ef - encLen W e1) := by
        omega
      have hexp : 2 ^ ((encLen W ef - encLen W e) * W)
          = 2 ^ (δ * W) * 2 ^ ((encLen W ef - encLen W e1) * W) := by
        rw [← pow_add]
        congr 1
        rw [hγ]
        ring
      have hTlo : (encTotal W e + c * (e.range >>> P))
          * 2 ^ ((encLen W ef - encLen W e) * W) ≤ encTotal W ef := by
        calc (encTotal W e + c * (e.range >>> P))
              * 2 ^ ((encLen W ef - encLen W e) * W)
            = encTotal W e1 * 2 ^ ((encLen W ef - encLen W e1) * W) := by
              rw [hexp, htot1]; ring
          _ ≤ encTotal W ef := hnest.2.1
      have hThi : encTotal W ef + ef.range
          ≤ (encTotal W e + c * (e.range >>> P) + e.range >>> P * p)
            * 2 ^ ((encLen W ef - encLen W e) * W) := by
        calc encTotal W ef + ef.range
            ≤ (encTotal W e1 + e1.range)
              * 2 ^ ((encLen W ef - encLen W e1) * W) := hnest.2.2
          _ = (encTotal W e + c * (e.range >>> P) + e.range >>> P * p)
              * 2 ^ ((encLen W ef - encLen W e) * W) := by
              rw [hexp, htot1, hrg1]; ring
      have hUdiv : padPrefix W stream (encLen W e + 2)
          = padPrefix W stream (encLen W ef + 2)
            / 2 ^ ((encLen W ef - encLen W e) * W) := by
        have h := padPrefix_div W stream hstream
          (encLen W ef - encLen W e) (encLen W e + 2)
        rw [show encLen W e + 2 + (encLen W ef - encLen W e)
            = encLen W ef + 2 by omega] at h
        exact h
      have hwin1 : encTotal W e + c * (e.range >>> P)
          ≤ padPrefix W stream (encLen W e + 2) := by
        rw [hUdiv]
        refine (Nat.le_div_iff_mul_le (Nat.two_pow_pos _)).mpr ?_
        exact le_trans hTlo hfits.1
      have hwin2 : padPrefix W stream (encLen W e + 2)
          < encTotal W e + c * (e.range >>> P) + e.range >>> P * p := by
        rw [hUdiv]
        refine (Nat.div_lt_iff_lt_mul (Nat.two_pow_pos _)).mpr ?_
        have h1 := hfits.2
        omega
      -- the decoder's wrapped subtraction recovers the exact offset
      have hoff : (d.point + 2 ^ (2 * W) - d.low) % 2 ^ (2 * W)
          = padPrefix W stream (encLen W e + 2) - encTotal W e := by
        rw [hdpt, hdlow, show e.low = encTotal W e % 2 ^ (2 * W) from
          (encTotal_mod W e hlow).symm]
        exact wsub_window (2 ^ (2 * W)) _ _ e.range
          (by omega) (by omega) (le_of_lt hrlt)
      have hqlo : c ≤ (padPrefix W stream (encLen W e + 2) - encTotal W e)
          / (e.range >>> P) :=
        (Nat.le_div_iff_mul_le hru1).mpr (by omega)
      have hbridge : c * (e.range >>> P) + e.range >>> P * p
          = (c + p) * (e.range >>> P) := by ring
      have hqhi : (padPrefix W stream (encLen W e + 2) - encTotal W e)
          / (e.range >>> P) < c + p :=
        (Nat.div_lt_iff_lt_mul hru1).mpr (by omega)
      have hqmin : min ((padPrefix W stream (encLen W e + 2) - encTotal W e)
            / (e.range >>> P)) (2 ^ P - 1)
          = (padPrefix W stream (encLen W e + 2) - encTotal W e)
            / (e.range >>> P) := by
        refine min_eq_left ?_
        have hpP : 0 < 2 ^ P := Nat.two_pow_pos P
        omega
      have hquant : quantileFunction m
          ((padPrefix W stream (encLen W e + 2) - encTotal W e) / (e.range >>> P))
          = some (s, c, p) :=
        quantile_of_lcp m s c p _ hc hqlo hqhi
      have hdstep : rangeDecodeStep W P m d = some (s, decRenormGo W 2
          { d with low := (d.low + c * (e.range >>> P)) % 2 ^ (2 * W),
                   range := e.range >>> P * p }) := by
        unfold rangeDecodeStep
        dsimp only
        rw [hdrg, hoff, hqmin, hquant]
      -- the updated decoder window matches the encoder's
      have hd1low : (d.low + c * (e.range >>> P)) % 2 ^ (2 * W)
          = (encTotal W e + c * (e.range >>> P)) % 2 ^ (2 * W) := by
        rw [hdlow, show e.low = encTotal W e % 2 ^ (2 * W) from
          (encTotal_mod W e hlow).symm]
        exact mod_add_mod2 _ _ _
      have he1low : e1.low = encTotal W e1 % 2 ^ (2 * W) :=
        (encTotal_mod W e1 hwf1.1).symm
      rcases Nat.le_one_iff_eq_zero_or_eq_one.mp hδ with hδ0 | hδ1
      · -- no renormalization shift on either side
        subst hδ0
        simp only [Nat.zero_mul, pow_zero, Nat.mul_one] at htot1 hrg1
        have hcond : ¬(e.range >>> P * p < 2 ^ W) := by
          have h1 : 2 ^ W ≤ e1.range := hwf1.2.1
          rw [hrg1] at h1
          omega
        have hd' : decRenormGo W 2
            { d with low := (d.low + c * (e.range >>> P)) % 2 ^ (2 * W),
                     range := e.range >>> P * p }
            = { d with low := (d.low + c * (e.range >>> P)) % 2 ^ (2 * W),
                       range := e.range >>> P * p } := by
          rw [decRenormGo_two W _ (by
            show 1 ≤ e.range >>> P * p
            exact Nat.mul_le_mul hru1 hp1)]
          exact if_neg hcond
        have hrel1 : RangeRel W stream e1
            { d with low := (d.low + c * (e.range >>> P)) % 2 ^ (2 * W),
                     range := e.range >>> P * p } := by
          refine ⟨?_, ?_, ?_, ?_⟩
          · show (d.low + c * (e.range >>> P)) % 2 ^ (2 * W) = e1.low
            rw [hd1low, he1low, htot1]
          · show e.range >>> P * p = e1.range
            rw [hrg1]
          · show d.point = padPrefix W stream (encLen W e1 + 2) % 2 ^ (2 * W)
            rw [hdpt, hlen1, Nat.add_zero]
          · show d.input = stream.drop (encLen W e1 + 2)
            rw [hdin, hlen1, Nat.add_zero]
        obtain ⟨df, hdec, hrelf⟩ := ih e1 ef _ hwf1 hseq hrel1 hfits
        refine ⟨df, ?_, hrelf⟩
        rw [show (s :: rest).length = rest.length + 1 from rfl,
          rangeDecodeSeq, hdstep, hd']
        dsimp only
        rw [hdec]
      · -- one renormalization shift on either side
        subst hδ1
        simp only [Nat.one_mul] at htot1 hrg1
        have hcond : e.range >>> P * p < 2 ^ W := by
          have h1 : e1.range < 2 ^ (2 * W) := hwf1.2.2.1
          rw [hrg1, two_pow_two_mul] at h1
          exact Nat.lt_of_mul_lt_mul_right h1
        have hd' : decRenormGo W 2
            { d with low := (d.low + c * (e.range >>> P)) % 2 ^ (2 * W),
                     range := e.range >>> P * p }
            = decShift W
              { d with low := (d.low + c * (e.range >>> P)) % 2 ^ (2 * W),
                       range := e.range >>> P * p } := by
          rw [decRenormGo_two W _ (by
            show 1 ≤ e.range >>> P * p
            exact Nat.mul_le_mul hru1 hp1)]
          exact if_pos hcond
        have hg : stream.getD (encLen W e + 2) 0 < 2 ^ W :=
          getD_lt W stream hstream _
        have hrel1 : RangeRel W stream e1
            (decShift W
              { d with low := (d.low + c * (e.range >>> P)) % 2 ^ (2 * W),
                       range := e.range >>> P * p }) := by
          refine ⟨?_, ?_, ?_, ?_⟩
          · show ((d.low + c * (e.range >>> P)) % 2 ^ (2 * W)) <<< W % 2 ^ (2 * W)
              = e1.low
            rw [Nat.shiftLeft_eq, hd1low, mod_mul_mod2, he1low, htot1]
          · show (e.range >>> P * p) <<< W = e1.range
            rw [Nat.shiftLeft_eq, hrg1]
          · show (d.point <<< W ||| d.input.headD 0) % 2 ^ (2 * W)
              = padPrefix W stream (encLen W e1 + 2) % 2 ^ (2 * W)
            rw [hdin, drop_headD, hdpt, shiftLeft_lor_eq_add _ _ _ hg,
              mod_mul_add_mod, ← padPrefix_succ, hlen1,
              show encLen W e + 1 + 2 = encLen W e + 2 + 1 by omega]
          · show d.input.tail = stream.drop (encLen W e1 + 2)
            rw [hdin, drop_tail, hlen1]
        obtain ⟨df, hdec, hrelf⟩ := ih e1 ef _ hwf1 hseq hrel1 hfits
        refine ⟨df, ?_, hrelf⟩
        rw [show (s :: rest).length = rest.length + 1 from rfl,
          rangeDecodeSeq, hdstep, hd']
        dsimp only
        rw [hdec]

/-- Reading exactly the appended list's length of padded digits gives
its base-`2^W` value, whatever follows. -/
theorem padPrefix_append_nat (W : Nat) (l rest : List Nat) :
    padPrefix W (l ++ rest) l.length = natOfDigits W l := by
  unfold padPrefix
  congr 1
  apply List.ext_getElem
  · simp
  · intro i h1 h2
    simp only [List.getElem_map, List.getElem_range]
    rw [List.getD_eq_getElem _ _ (by simp; omega), List.getElem_append_left h2]

/-- The cached slot is always occupied after an emission. -/
theorem emitWord_cached (W : Nat) (e : RangeEncoder) (w : Nat) :
    (emitWord W e w).cached ≠ none := by
  rcases emitWord_cases W e w with ⟨hc, heq⟩ | ⟨cw, hc, _, heq⟩ | ⟨cw, hc, _, heq⟩ <;>
    · rw [heq]
      simp [hc]

/-- Sealing a non-fresh well-formed encoder emits only `W`-bit words,
and the sealed stream — extended by arbitrary `W`-bit garbage — pins
the decoder's padded view inside the final interval. -/
theorem rangeSeal_fits (W : Nat) (e : RangeEncoder) (garbage : List Nat)
    (hwf : EncWf W e) (hne : e.range ≠ 2 ^ (2 * W) - 1)
    (hgarb : ∀ w ∈ garbage, w < 2 ^ W) :
    (∀ w ∈ rangeSeal W e ++ garbage, w < 2 ^ W) ∧
    StreamFits W (rangeSeal W e ++ garbage) e := by
  have hwfe := hwf
  obtain ⟨hlow, hrge, hrlt, hwords, hnone, hbadc, hinv⟩ := hwfe
  have hpw : 0 < 2 ^ W := Nat.two_pow_pos W
  have h22 : 2 ^ (2 * W) = 2 ^ W * 2 ^ W := two_pow_two_mul W
  have htote : encTotal W e
      = natOfDigits W (flushAll W e) * 2 ^ (2 * W) + e.low := rfl
  have hM0div : (e.low + (2 ^ W - 1)) >>> W = (e.low + (2 ^ W - 1)) / 2 ^ W :=
    Nat.shiftRight_eq_div_pow _ _
  have hdm := Nat.div_add_mod (e.low + (2 ^ W - 1)) (2 ^ W)
  have hmodlt : (e.low + (2 ^ W - 1)) % 2 ^ W < 2 ^ W := Nat.mod_lt _ hpw
  have hcomm : (e.low + (2 ^ W - 1)) / 2 ^ W * 2 ^ W
      = 2 ^ W * ((e.low + (2 ^ W - 1)) / 2 ^ W) := Nat.mul_comm _ _
  have hlowle : e.low ≤ ((e.low + (2 ^ W - 1)) >>> W) * 2 ^ W := by
    rw [hM0div]
    omega
  have hM0le : (e.low + (2 ^ W - 1)) >>> W ≤ 2 ^ W := by
    rw [hM0div]
    have h1 : (e.low + (2 ^ W - 1)) / 2 ^ W * 2 ^ W ≤ e.low + (2 ^ W - 1) :=
      Nat.div_mul_le_self _ _
    have h2 : e.low + (2 ^ W - 1) < (2 ^ W + 1) * 2 ^ W := by
      have h3 : (2 ^ W + 1) * 2 ^ W = 2 ^ W * 2 ^ W + 2 ^ W := by ring
      omega
    have h4 : (e.low + (2 ^ W - 1)) / 2 ^ W < 2 ^ W + 1 :=
      Nat.lt_of_mul_lt_mul_right (lt_of_le_of_lt h1 h2)
    omega
  unfold rangeSeal
  rw [if_neg (fun h => hne h.2.1)]
  dsimp only
  by_cases hcond : ((e.low + (2 ^ W - 1)) >>> W) * 2 ^ W + 2 ^ W ≤ e.low + e.range
  · rw [if_pos hcond]
    by_cases hMlt : (e.low + (2 ^ W - 1)) >>> W < 2 ^ W
    · -- one extra word, no final carry
      rw [if_pos hMlt]
      obtain ⟨hfl, _, _⟩ := flushAll_emitWord W e ((e.low + (2 ^ W - 1)) >>> W) hnone
      have hwstream : ∀ w ∈ flushAll W (emitWord W e ((e.low + (2 ^ W - 1)) >>> W))
          ++ garbage, w < 2 ^ W := by
        intro w hw
        rw [hfl] at hw
        rcases List.mem_append.mp hw with h | h
        · rcases List.mem_append.mp h with h' | h'
          · exact hwords w h'
          · simp only [List.mem_singleton] at h'
            subst h'
            exact hMlt
        · exact hgarb w h
      refine ⟨hwstream, ?_, ?_⟩ <;>
        rw [show encLen W e + 2 = encLen W e + 1 + 1 by omega, padPrefix_succ, hfl,
          show encLen W e + 1 = (flushAll W e
              ++ [(e.low + (2 ^ W - 1)) >>> W]).length by simp [encLen],
          padPrefix_append_nat, natOfDigits_append,
          show natOfDigits W [(e.low + (2 ^ W - 1)) >>> W]
              = (e.low + (2 ^ W - 1)) >>> W by simp [natOfDigits],
          List.length_singleton, one_mul, htote]
      · -- the stream prefix is at least the interval start
        have hb1 : (natOfDigits W (flushAll W e) * 2 ^ W
              + (e.low + (2 ^ W - 1)) >>> W) * 2 ^ W
            = natOfDigits W (flushAll W e) * (2 ^ W * 2 ^ W)
              + ((e.low + (2 ^ W - 1)) >>> W) * 2 ^ W := by ring
        rw [hb1, ← h22]
        omega
      · -- the stream prefix (plus one) stays below the interval end
        have hb1 : (natOfDigits W (flushAll W e) * 2 ^ W
              + (e.low + (2 ^ W - 1)) >>> W) * 2 ^ W
            = natOfDigits W (flushAll W e) * (2 ^ W * 2 ^ W)
              + ((e.low + (2 ^ W - 1)) >>> W) * 2 ^ W := by ring
        rw [hb1, ← h22]
        have hglt : (flushAll W e ++ [(e.low + (2 ^ W - 1)) >>> W] ++ garbage).getD
            ((flushAll W e ++ [(e.low + (2 ^ W - 1)) >>> W]).length) 0 < 2 ^ W := by
          refine getD_lt W _ ?_ _
          intro w hw
          refine hwstream w ?_
          rw [hfl]
          exact hw
        omega
    · -- one extra word with a final carry into the emitted digits
      rw [if_neg hMlt]
      have hMeq : (e.low + (2 ^ W - 1)) >>> W = 2 ^ W := by omega
      have hbig : 2 ^ (2 * W) < e.low + e.range := by
        rw [hMeq] at hcond
        omega
      obtain ⟨cw, hcc, hcw1, hpendok⟩ := carry_ok W e hwf hbig
      obtain ⟨hN1, hlen1, _, _, hcach1, _⟩ := flushAll_propagateCarry W e cw hcc hpendok
      have hfeq := flushAll_propagateCarry_eq W e cw hcc
      obtain ⟨hfl2, _, _⟩ := flushAll_emitWord W (propagateCarry e) 0
        (fun h => absurd h (by rw [hcach1]; simp))
      have hwpc : ∀ w ∈ flushAll W (propagateCarry e), w < 2 ^ W := by
        intro w hw
        rw [hfeq] at hw
        rcases List.mem_append.mp hw with h | h
        · refine hwords w ?_
          unfold flushAll
          exact List.mem_append_left _ h
        · rcases List.mem_cons.mp h with h' | h'
          · omega
          · have := List.eq_of_mem_replicate h'
            omega
      have hwstream : ∀ w ∈ flushAll W (emitWord W (propagateCarry e) 0)
          ++ garbage, w < 2 ^ W := by
        rw [hfl2]
        intro w hw
        rcases List.mem_append.mp hw with h | h
        · rcases List.mem_append.mp h with h' | h'
          · exact hwpc w h'
          · simp only [List.mem_singleton] at h'
            omega
        · exact hgarb w h
      rw [hMeq, Nat.mod_self]
      refine ⟨hwstream, ?_, ?_⟩ <;>
        rw [show encLen W e + 2 = encLen W e + 1 + 1 by omega, padPrefix_succ, hfl2,
          show encLen W e + 1 = (flushAll W (propagateCarry e) ++ [0]).length by
            simp only [List.length_append, List.length_singleton]
            rw [hlen1]
            rfl,
          padPrefix_append_nat, natOfDigits_append, hN1,
          show natOfDigits W [0] = 0 by simp [natOfDigits],
          List.length_singleton, one_mul, htote]
      · have hb1 : ((natOfDigits W (flushAll W e) + 1) * 2 ^ W + 0) * 2 ^ W
            = natOfDigits W (flushAll W e) * (2 ^ W * 2 ^ W) + 2 ^ W * 2 ^ W := by ring
        rw [hb1, ← h22]
        omega
      · have hb1 : ((natOfDigits W (flushAll W e) + 1) * 2 ^ W + 0) * 2 ^ W
            = natOfDigits W (flushAll W e) * (2 ^ W * 2 ^ W) + 2 ^ W * 2 ^ W := by ring
        rw [hb1, ← h22]
        have hglt : (flushAll W (propagateCarry e) ++ [0] ++ garbage).getD
            ((flushAll W (propagateCarry e) ++ [0]).length) 0 < 2 ^ W := by
          refine getD_lt W _ ?_ _
          intro w hw
          refine hwstream w ?_
          rw [hfl2]
          exact hw
        rw [hMeq] at hcond
        omega
  · -- two extra words: the two halves of `low` itself
    rw [if_neg hcond]
    have hhi : e.low >>> W < 2 ^ W := by
      rw [Nat.shiftRight_eq_div_pow, Nat.div_lt_iff_lt_mul hpw, ← h22]
      exact hlow
    have hlo : e.low % 2 ^ W < 2 ^ W := Nat.mod_lt _ hpw
    obtain ⟨hfl1, _, _⟩ := flushAll_emitWord W e (e.low >>> W) hnone
    obtain ⟨hfl2, _, _⟩ := flushAll_emitWord W (emitWord W e (e.low >>> W))
      (e.low % 2 ^ W) (fun h => absurd h (emitWord_cached W e _))
    rw [hfl1] at hfl2
    have hwstream : ∀ w ∈ flushAll W (emitWord W (emitWord W e (e.low >>> W))
        (e.low % 2 ^ W)) ++ garbage, w < 2 ^ W := by
      rw [hfl2]
      intro w hw
      rcases List.mem_append.mp hw with h | h
      · rcases List.mem_append.mp h with h' | h'
        · rcases List.mem_append.mp h' with h'' | h''
          · exact hwords w h''
          · simp only [List.mem_singleton] at h''
            subst h''
            exact hhi
        · simp only [List.mem_singleton] at h'
          subst h'
          exact hlo
      · exact hgarb w h
    have hsplit : e.low >>> W * 2 ^ W + e.low % 2 ^ W = e.low := by
      rw [Nat.shiftRight_eq_div_pow]
      exact Nat.div_add_mod' e.low (2 ^ W)
    refine ⟨hwstream, ?_, ?_⟩ <;>
      rw [hfl2,
        show encLen W e + 2 = (flushAll W e ++ [e.low >>> W]
            ++ [e.low % 2 ^ W]).length by simp [encLen],
        padPrefix_append_nat, natOfDigits_append,
        show natOfDigits W [e.low % 2 ^ W] = e.low % 2 ^ W by simp [natOfDigits],
        natOfDigits_append,
        show natOfDigits W [e.low >>> W] = e.low >>> W by simp [natOfDigits],
        show ([e.low % 2 ^ W].length : Nat) = 1 from rfl,
        show ([e.low >>> W].length : Nat) = 1 from rfl,
        one_mul, htote]
    · have hb1 : (natOfDigits W (flushAll W e) * 2 ^ W + e.low >>> W) * 2 ^ W
            + e.low % 2 ^ W
          = natOfDigits W (flushAll W e) * (2 ^ W * 2 ^ W)
            + (e.low >>> W * 2 ^ W + e.low % 2 ^ W) := by ring
      rw [hb1, ← h22, hsplit]
    · have hb1 : (natOfDigits W (flushAll W e) * 2 ^ W + e.low >>> W) * 2 ^ W
            + e.low % 2 ^ W
          = natOfDigits W (flushAll W e) * (2 ^ W * 2 ^ W)
            + (e.low >>> W * 2 ^ W + e.low % 2 ^ W) := by ring
      rw [hb1, ← h22, hsplit]
      omega

/-- Any successful encode step leaves `range ≠ 2^S - 1` (for `P ≥ 1`):
an unshifted range is at most `2^S - 2^P`, and a shifted range is even
while `2^S - 1` is odd.  This is what makes the sealed-stream special
case for the fresh encoder unambiguous. -/
theorem rangeEncodeStep_range_ne (W P : Nat) (m : Model) (s : Int)
    (e e1 : RangeEncoder) (hW : 1 ≤ W) (hP : 1 ≤ P) (hPW : P ≤ W)
    (hm : m.Valid) (hprec : m.prec = P) (hwf : EncWf W e)
    (hstep : rangeEncodeStep W P m s e = some e1) :
    e1.range ≠ 2 ^ (2 * W) - 1 := by
  have hlcp : ∃ c p, leftCumulativeAndProbability m s = some (c, p) := by
    unfold rangeEncodeStep at hstep
    cases h : leftCumulativeAndProbability m s with
    | none => rw [h] at hstep; exact absurd hstep (by simp)
    | some cp => obtain ⟨c', p'⟩ := cp; exact ⟨c', p', rfl⟩
  obtain ⟨c, p, hc⟩ := hlcp
  obtain ⟨hp1, hcp⟩ := lcp_bounds m hm s c p hc
  rw [hprec] at hcp
  obtain ⟨e2, δ, hstep2, hδ, hwf1, hlen1, htot1, hrg1, hshrink⟩ :=
    rangeEncodeStep_sim W P m s e hPW hwf c p hc hcp hp1
  rw [hstep] at hstep2
  have he12 : e1 = e2 := by
    simpa using hstep2
  subst he12
  have h2S : (2 : Nat) ∣ 2 ^ (2 * W) := dvd_pow_self 2 (by omega)
  have h2Spos : 1 ≤ 2 ^ (2 * W) := Nat.one_le_two_pow
  have hrup : e.range >>> P * 2 ^ P ≤ 2 ^ (2 * W) - 1 := by
    rw [Nat.shiftRight_eq_div_pow]
    have h1 : e.range / 2 ^ P * 2 ^ P ≤ e.range := Nat.div_mul_le_self _ _
    have h2 : e.range < 2 ^ (2 * W) := hwf.2.2.1
    omega
  have hdvd : (2 : Nat) ∣ e.range >>> P * 2 ^ P :=
    Dvd.dvd.mul_left (dvd_pow_self 2 (by omega)) _
  rcases Nat.le_one_iff_eq_zero_or_eq_one.mp hδ with hδ0 | hδ1
  · subst hδ0
    simp only [Nat.zero_mul, pow_zero, Nat.mul_one] at hrg1
    have hple : p ≤ 2 ^ P := by omega
    have hle : e1.range ≤ e.range >>> P * 2 ^ P := by
      rw [hrg1]
      exact Nat.mul_le_mul_left _ hple
    omega
  · subst hδ1
    simp only [Nat.one_mul] at hrg1
    have hdvd1 : (2 : Nat) ∣ e1.range := by
      rw [hrg1]
      exact Dvd.dvd.mul_left (dvd_pow_self 2 (by omega)) _
    omega

/-- The final encoder of a nonempty encode run has `range ≠ 2^S - 1`. -/
theorem rangeEncodeSeq_range_ne (W P : Nat) (m : Model)
    (hW : 1 ≤ W) (hP : 1 ≤ P) (hPW : P ≤ W) (hm : m.Valid) (hprec : m.prec = P) :
    ∀ (msg : List Int) (e ef : RangeEncoder), msg ≠ [] → EncWf W e →
      rangeEncodeSeq W P m msg e = some ef → ef.range ≠ 2 ^ (2 * W) - 1 := by
  intro msg
  induction msg with
  | nil => intro e ef hne _ _; exact absurd rfl hne
  | cons s rest ih =>
    intro e ef _ hwf hseq
    rw [rangeEncodeSeq] at hseq
    cases hstep : rangeEncodeStep W P m s e with
    | none => rw [hstep] at hseq; exact absurd hseq (by simp)
    | some e1 =>
      rw [hstep] at hseq
      have hwf1 : EncWf W e1 := by
        have hlcp : ∃ c p, leftCumulativeAndProbability m s = some (c, p) := by
          unfold rangeEncodeStep at hstep
          cases h : leftCumulativeAndProbability m s with
          | none => rw [h] at hstep; exact absurd hstep (by simp)
          | some cp => obtain ⟨c', p'⟩ := cp; exact ⟨c', p', rfl⟩
        obtain ⟨c, p, hc⟩ := hlcp
        obtain ⟨hp1, hcp⟩ := lcp_bounds m hm s c p hc
        rw [hprec] at hcp
        obtain ⟨e2, δ, hstep2, _, hwf2, _, _, _, _⟩ :=
          rangeEncodeStep_sim W P m s e hPW hwf c p hc hcp hp1
        rw [hstep] at hstep2
        have he12 : e1 = e2 := by
          simpa using hstep2
        rw [he12]
        exact hwf2
      cases hrest : rest with
      | nil =>
        subst hrest
        have hef : e1 = ef := by
          simpa [rangeEncodeSeq] using hseq
        subst hef
        exact rangeEncodeStep_range_ne W P m s e e1 hW hP hPW hm hprec hwf hstep
      | cons t ts =>
        subst hrest
        exact ih e1 ef (by simp) hwf1 hseq

/-- In-alphabet messages always encode successfully. -/
theorem rangeEncodeSeq_total (W P : Nat) (m : Model)
    (hPW : P ≤ W) (hm : m.Valid) (hprec : m.prec = P) :
    ∀ (msg : List Int) (e : RangeEncoder), EncWf W e →
      (∀ s ∈ msg, m.lower ≤ s ∧ s < m.lower + m.probs.length) →
      ∃ ef, rangeEncodeSeq W P m msg e = some ef := by
  intro msg
  induction msg with
  | nil => intro e _ _; exact ⟨e, rfl⟩
  | cons s rest ih =>
    intro e hwf hmem
    obtain ⟨hin1, hin2⟩ := hmem s (List.mem_cons_self s rest)
    have hc : leftCumulativeAndProbability m s
        = some ((m.probs.take (s - m.lower).toNat).sum,
            m.probs.getD (s - m.lower).toNat 0) := by
      unfold leftCumulativeAndProbability
      rw [if_pos ⟨hin1, hin2⟩]
    obtain ⟨hp1, hcp⟩ := lcp_bounds m hm s _ _ hc
    rw [hprec] at hcp
    obtain ⟨e1, δ, hstep, _, hwf1, _, _, _, _⟩ :=
      rangeEncodeStep_sim W P m s e hPW hwf _ _ hc hcp hp1
    obtain ⟨ef, hseq⟩ := ih e1 hwf1 (fun x hx => hmem x (List.mem_cons_of_mem _ hx))
    refine ⟨ef, ?_⟩
    rw [rangeEncodeSeq, hstep]
    exact hseq

/-- The fresh Range encoder is well-formed. -/
theorem encWf_init (W : Nat) (hW : 1 ≤ W) : EncWf W (rangeEncoderInit W) := by
  have hlt : 2 ^ W < 2 ^ (2 * W) := Nat.pow_lt_pow_right (by norm_num) (by omega)
  have hpos : 0 < 2 ^ (2 * W) := Nat.two_pow_pos _
  refine ⟨hpos, ?_, ?_, ?_, fun _ => ⟨rfl, rfl⟩, ?_, ?_⟩
  · show 2 ^ W ≤ 2 ^ (2 * W) - 1
    omega
  · show 2 ^ (2 * W) - 1 < 2 ^ (2 * W)
    omega
  · intro w hw
    simp [flushAll, rangeEncoderInit] at hw
  · intro h
    rcases h with ⟨h1, _⟩ | ⟨h1, _⟩
    · exact absurd h1 (by simp [rangeEncoderInit])
    · exact absurd h1 (by simp [rangeEncoderInit])
  · show natOfDigits W (flushAll W (rangeEncoderInit W)) * 2 ^ (2 * W) + 0
        + (2 ^ (2 * W) - 1) ≤ 2 ^ (encLen W (rangeEncoderInit W) * W + 2 * W)
    rw [show flushAll W (rangeEncoderInit W) = [] from rfl,
      show encLen W (rangeEncoderInit W) = 0 from rfl]
    simp [natOfDigits]

/-- The fresh decoder built from a stream of `W`-bit words matches the
fresh encoder under the simulation relation. -/
theorem rangeRel_init (W : Nat) (stream : List Nat)
    (hstream : ∀ w ∈ stream, w < 2 ^ W) :
    RangeRel W stream (rangeEncoderInit W) (rangeDecoderInit W stream) := by
  refine ⟨rfl, rfl, ?_, ?_⟩
  · show (stream.headD 0 <<< W ||| stream.tail.headD 0)
      = padPrefix W stream (encLen W (rangeEncoderInit W) + 2) % 2 ^ (2 * W)
    rw [show encLen W (rangeEncoderInit W) = 0 from rfl, Nat.zero_add,
      Nat.mod_eq_of_lt (by
        have := padPrefix_lt W stream hstream 2
        rw [show 2 * W = 2 * W from rfl]
        exact this)]
    have h0 : stream.headD 0 = stream.getD 0 0 := by
      cases stream <;> rfl
    have h1 : stream.tail.headD 0 = stream.getD 1 0 := by
      cases stream with
      | nil => rfl
      | cons a t => cases t <;> rfl
    rw [h0, h1, shiftLeft_lor_eq_add _ _ _ (getD_lt W stream hstream 1),
      show (2 : Nat) = 1 + 1 from rfl, padPrefix_succ, padPrefix_succ, padPrefix_zero]
    simp
  · show stream.tail.tail = stream.drop (encLen W (rangeEncoderInit W) + 2)
    rw [show encLen W (rangeEncoderInit W) = 0 from rfl, Nat.zero_add]
    cases stream with
    | nil => rfl
    | cons a t => cases t <;> rfl

/-- Full Range pipeline: encode from fresh, seal, append arbitrary
`W`-bit garbage, decode from fresh — the message comes back. -/
theorem range_roundtrip (W P : Nat) (m : Model) (msg : List Int) (garbage : List Nat)
    (hW : 1 ≤ W) (hP : 1 ≤ P) (hPW : P ≤ W) (hm : m.Valid) (hprec : m.prec = P)
    (hgarb : ∀ w ∈ garbage, w < 2 ^ W) (ef : RangeEncoder)
    (henc : rangeEncodeSeq W P m msg (rangeEncoderInit W) = some ef) :
    ∃ df, rangeDecodeSeq W P m msg.length
      (rangeDecoderInit W (rangeSeal W ef ++ garbage)) = some (msg, df) := by
  cases msg with
  | nil => exact ⟨_, rfl⟩
  | cons s rest =>
    have hne := rangeEncodeSeq_range_ne W P m hW hP hPW hm hprec (s :: rest)
      (rangeEncoderInit W) ef (by simp) (encWf_init W hW) henc
    have hweff : EncWf W ef :=
      (rangeEncodeSeq_wf_nested W P m hPW hm hprec (s :: rest)
        (rangeEncoderInit W) ef (encWf_init W hW) henc).1
    obtain ⟨hwords, hfits⟩ := rangeSeal_fits W ef garbage hweff hne hgarb
    obtain ⟨df, hdec, _⟩ := rangeDecodeSeq_sim W P m (rangeSeal W ef ++ garbage)
      hPW hm hprec hwords (s :: rest) (rangeEncoderInit W) ef
      (rangeDecoderInit W (rangeSeal W ef ++ garbage))
      (encWf_init W hW) henc (rangeRel_init W _ hwords) hfits
    exact ⟨df, hdec⟩

/-- Claim C2: for every valid model and every in-alphabet message, the
full pipeline — encode all symbols, seal the coder, construct a fresh
decoder from the resulting word sequence, and decode in the
discipline's natural order — recovers the original message, for both
the ANS coder (stack order: `encode_reverse` then forward decoding of
the serialized buffer) and the Range coder (queue order); the Range
sealing emits enough words that the decoder lands inside the final
interval regardless of trailing buffer content (arbitrary `W`-bit
garbage appended to the sealed stream). -/
theorem full_pipeline_roundtrip (W P : Nat) (m : Model)
    (hW : 1 ≤ W) (hP : 1 ≤ P) (hPW : P ≤ W) (hm : m.Valid) (hprec : m.prec = P)
    (msg : List Int) (hmsg : ∀ s ∈ msg, m.lower ≤ s ∧ s < m.lower + m.probs.length)
    (garbage : List Nat) (hgarb : ∀ w ∈ garbage, w < 2 ^ W) :
    (∃ c', encodeReverse W P m msg ⟨0, []⟩ = some c' ∧
      decodeSeq W P m msg.length (ansFromCompressed W (ansGetCompressed W c'))
        = some (msg, ⟨0, []⟩)) ∧
    (∃ ef df, rangeEncodeSeq W P m msg (rangeEncoderInit W) = some ef ∧
      rangeDecodeSeq W P m msg.length
        (rangeDecoderInit W (rangeSeal W ef ++ garbage)) = some (msg, df)) := by
  constructor
  · have hwf0 : AnsWf W ⟨0, []⟩ := by
      refine ⟨Nat.two_pow_pos _, ?_, ?_⟩ <;> simp
    obtain ⟨c', h1, hwf', h3⟩ := encodeSeq_decodeSeq W P m hPW hm hprec msg.reverse
      ⟨0, []⟩ hwf0 (fun s hs => hmsg s (List.mem_reverse.mp hs))
    refine ⟨c', h1, ?_⟩
    rw [fromCompressed_getCompressed W c' hwf',
      show msg.length = msg.reverse.length from (List.length_reverse msg).symm, h3,
      List.reverse_reverse]
  · obtain ⟨ef, henc⟩ := rangeEncodeSeq_total W P m hPW hm hprec msg
      (rangeEncoderInit W) (encWf_init W hW) hmsg
    obtain ⟨df, hdec⟩ := range_roundtrip W P m msg garbage hW hP hPW hm hprec
      hgarb ef henc
    exact ⟨ef, df, henc, hdec⟩

/-- Witness for C2 with `W = 4`, `P = 3`, probabilities `[3, 5]`, the
message `[1, 0, 1]`, and the trailing garbage words `[15, 7]`. -/
theorem full_pipeline_roundtrip_witness :
    (∃ c', encodeReverse 4 3 ⟨0, 3, [3, 5]⟩ [1, 0, 1] ⟨0, []⟩ = some c' ∧
      decodeSeq 4 3 ⟨0, 3, [3, 5]⟩ ([1, 0, 1] : List Int).length
        (ansFromCompressed 4 (ansGetCompressed 4 c'))
        = some ([1, 0, 1], ⟨0, []⟩)) ∧
    (∃ ef df, rangeEncodeSeq 4 3 ⟨0, 3, [3, 5]⟩ [1, 0, 1] (rangeEncoderInit 4)
        = some ef ∧
      rangeDecodeSeq 4 3 ⟨0, 3, [3, 5]⟩ ([1, 0, 1] : List Int).length
        (rangeDecoderInit 4 (rangeSeal 4 ef ++ [15, 7])) = some ([1, 0, 1], df)) :=
  full_pipeline_roundtrip 4 3 ⟨0, 3, [3, 5]⟩ (by decide) (by decide) (by decide)
    (by decide) rfl [1, 0, 1] (by decide) [15, 7] (by decide)
